import Mathlib

/-!
# hackathon-wrapper/wrapper.cpp : `encryptBytes`

A shallow embedding of the C entry point `encryptBytes` and of the four
callbacks it hands to the TDF3 client (`encryptSourceCB`, `encryptSinkCB`,
`decryptSourceCB`, `decryptSinkCB`).

Conventions of the embedding.

* Data model LP64: `unsigned int` is 32 bits wide, `unsigned long` and
  `size_t` are 64 bits wide.  Machine integers are natural numbers; every
  operation that can wrap carries its `% 2^32` or `% 2^64` explicitly.
* A buffer is the list of its bytes.  A pointer `p + i` that a callback
  derives from a base pointer `p` (`data`, `outputBuf`) is kept as the index
  `i`; the base pointer itself may be `NULL`, and `BufferSpan.address` gives
  the machine address of `p + i` from the address `p` holds.
* The lambdas capture the locals of `encryptBytes` by reference.  They are
  functions on the record `Locals` of those captured variables.
* `new uint8_t[n]` yields `n` bytes of unspecified content, read off a
  function `uninit`.
* The client (`virtru::Client`) is a library outside this file: it is a
  parameter.
-/

namespace Wrapper

/-- One `uint8_t`. -/
abbrev Byte : Type := Fin 256

/-- Number of values of an `unsigned int`. -/
abbrev UINT_RANGE : Nat := 4294967296

/-- Number of values of an `unsigned long` (and of `size_t`). -/
abbrev ULONG_RANGE : Nat := 18446744073709551616

/-- The status type `virtru::Status`. -/
inductive Status where
  | Success
  | Failure
  deriving DecidableEq, Repr

/-- The span `virtru::BufferSpan` as a source callback returns it.  `data` is
`none` for the literal `nullptr` of lines 47 and 94 and `some i` for the
pointer `p + i`, where `p` is the base pointer the lambda offsets: the
parameter `data` in `encryptSourceCB`, `outputBuf` in `decryptSourceCB`.
Whether `p + i` is a null pointer depends on `p`, which for `data` is the
caller's and may be `NULL`: see `BufferSpan.address`.  `dataLength` is the
number of bytes. -/
structure BufferSpan where
  data : Option Nat
  dataLength : Nat
  deriving DecidableEq, Repr

/-- The lines written to `std::cerr` and `std::cout`, and the other effects
of `encryptBytes` that are visible from outside. -/
inductive Event where
  | cerrNoUser
  | cerrNoAppId
  | cerrSinkFailing (in_len dOffset dataLength : Nat)
  | cerrException
  | coutRoundTripOk
  | coutRoundTripFailed
  | coutWeDidIt (outputOffset : Nat)
  | alloc (n : Nat)
  | free
  | construct
  | encryptData
  | decryptData
  deriving DecidableEq, Repr

/-- The local variables of `encryptBytes` that its lambdas capture. -/
structure Locals where
  offset : Nat
  outputOffset : Nat
  buf_size : Nat
  outputBuf : List Byte
  decryptOffset : Nat
  decryptBuf : List Byte
  dOffset : Nat
  events : List Event
  deriving DecidableEq, Repr

/-- The content of `new uint8_t[n]`. -/
def alloc (uninit : Nat → Byte) (n : Nat) : List Byte :=
  (List.range n).map uninit

/-- The effect of `memcpy(dst + off, src, src.length)` on `dst`. -/
def memcpy (dst : List Byte) (off : Nat) (src : List Byte) : List Byte :=
  dst.take off ++ src ++ dst.drop (off + src.length)

/-- The machine address the pointer of a span holds, 0 being the null
pointer.  `base` is the address the base pointer of the callback holds: 0
when the caller passed `data = NULL` (the spec asks for a non-null `data`
only when `in_len > 0`), never 0 for `outputBuf`, which comes from `new`.
`nullptr` has address 0, `p + i` has the address of `p` plus `i`. -/
def BufferSpan.address (base : Nat) (span : BufferSpan) : Nat :=
  match span.data with
  | none => 0
  | some i => base + i

/-- The bytes a reader finds behind a span that points into `mem`. -/
def deref (mem : List Byte) (span : BufferSpan) : List Byte :=
  match span.data with
  | none => []
  | some i => (mem.drop i).take span.dataLength

/-- The lambda `encryptSourceCB` (lines 34-49).  `offset` is an
`unsigned int`, `in_len` and `bytes_left` are `unsigned long`.  The pointers
`data + old_offset` and `data + offset` are returned as `some old_offset` and
`some offset`, whatever `data` is, `NULL` included. -/
def encryptSourceCB (in_len : Nat) (L : Locals) : Status × BufferSpan × Locals :=
  if L.offset < in_len then
    -- no wrap: the guard gives `offset < in_len`
    let bytes_left := in_len - L.offset
    let old_offset := L.offset
    let offset := (L.offset + min 16 bytes_left) % UINT_RANGE
    (Status.Success,
     { data := some old_offset,
       dataLength := (offset + UINT_RANGE - old_offset) % UINT_RANGE },
     { L with offset := offset })
  else if L.offset ≥ in_len then
    (Status.Success, { data := some L.offset, dataLength := 0 }, L)
  else
    (Status.Failure, { data := none, dataLength := 0 }, L)

/-- The lambda `decryptSourceCB` (lines 80-96).  All three of
`decryptOffset`, `outputOffset` and `bytes_left` are `unsigned long`.  The
pointers `outputBuf + old_offset` and `outputBuf + decryptOffset` are
returned as `some old_offset` and `some decryptOffset`. -/
def decryptSourceCB (L : Locals) : Status × BufferSpan × Locals :=
  if L.decryptOffset < L.outputOffset then
    -- no wrap: the guard gives `decryptOffset < outputOffset`
    let bytes_left := L.outputOffset - L.decryptOffset
    let old_offset := L.decryptOffset
    let decryptOffset := (L.decryptOffset + min 16 bytes_left) % ULONG_RANGE
    (Status.Success,
     { data := some old_offset,
       dataLength := (decryptOffset + ULONG_RANGE - old_offset) % ULONG_RANGE },
     { L with decryptOffset := decryptOffset })
  else if L.decryptOffset ≥ L.outputOffset then
    (Status.Success, { data := some L.decryptOffset, dataLength := 0 }, L)
  else
    (Status.Failure, { data := none, dataLength := 0 }, L)

/-- The lambda `encryptSinkCB` (lines 55-69), called with a span whose
bytes are `span`. -/
def encryptSinkCB (uninit : Nat → Byte) (L : Locals) (span : List Byte) :
    Status × Locals :=
  let dataLength := span.length
  let L1 : Locals :=
    if (L.outputOffset + dataLength) % ULONG_RANGE > L.buf_size then
      let new_buf_size :=
        max ((2 * L.buf_size) % ULONG_RANGE) ((L.buf_size + dataLength) % ULONG_RANGE)
      let new_buf := alloc uninit new_buf_size
      let new_buf := memcpy new_buf 0 (L.outputBuf.take L.outputOffset)
      { L with
        outputBuf := new_buf
        buf_size := new_buf_size
        events := L.events ++ [Event.alloc new_buf_size, Event.free] }
    else L
  (Status.Success,
   { L1 with
     outputBuf := memcpy L1.outputBuf L1.outputOffset span
     outputOffset := (L1.outputOffset + dataLength) % ULONG_RANGE })

/-- The lambda `decryptSinkCB` (lines 101-111), called with a span whose
bytes are `span`. -/
def decryptSinkCB (in_len : Nat) (L : Locals) (span : List Byte) :
    Status × Locals :=
  let dataLength := span.length
  if (L.dOffset + dataLength) % ULONG_RANGE ≥ (in_len + 1) % ULONG_RANGE then
    (Status.Failure,
     { L with events := L.events ++ [Event.cerrSinkFailing in_len L.dOffset dataLength] })
  else
    (Status.Success,
     { L with
       decryptBuf := memcpy L.decryptBuf L.dOffset span
       dOffset := (L.dOffset + dataLength) % ULONG_RANGE })

/-- The process environment `std::getenv` reads, and the content of fresh
heap memory. -/
structure Env where
  VIRTRU_SDK_USER : Option String
  VIRTRU_SDK_APP_ID : Option String
  uninit : Nat → Byte

/-- The pair of callbacks a client operation is called with; `mem` is the
buffer the spans of `source` point into. -/
structure Callbacks where
  source : Locals → Status × BufferSpan × Locals
  mem : Locals → List Byte
  sink : Locals → List Byte → Status × Locals

/-- How a call into the client ends: it returns, or it raises a
`std::exception`.  Either way the captured locals are as the callbacks left
them. -/
inductive Outcome where
  | returned (L : Locals)
  | raised (L : Locals)
  deriving DecidableEq, Repr

/-- The captured locals at the end of a call into the client. -/
def Outcome.locals : Outcome → Locals
  | Outcome.returned L => L
  | Outcome.raised L => L

/-- Whether a call into the client returned (rather than raised). -/
def Outcome.completed : Outcome → Bool
  | Outcome.returned _ => true
  | Outcome.raised _ => false

/-- A `virtru::Client` once constructed: its two operations.  `none` stands
for a call that never returns. -/
structure Client where
  encryptData : Callbacks → Locals → Option Outcome
  decryptData : Callbacks → Locals → Option Outcome

/-- The constructor `Client client {user, appId}`: `none` when it raises. -/
abbrev ClientLib : Type := String → String → Option Client

/-- What the caller of `encryptBytes` sees: the returned `int`, the two
out-parameters (`none` is the `NULL` pointer, `some buf` a pointer to a
buffer whose bytes are `buf`), and the effects of the call in order. -/
structure Result where
  status : Int
  output : Option (List Byte)
  out_len : Nat
  events : List Event
  deriving DecidableEq, Repr

/-- The callbacks of line 74: `EncryptDataParams {encryptSourceCB, encryptSinkCB}`. -/
def encryptCallbacks (env : Env) (data : List Byte) (in_len : Nat) : Callbacks :=
  { source := encryptSourceCB in_len
    mem := fun _ => data
    sink := encryptSinkCB env.uninit }

/-- The callbacks of line 113: `decryptData(decryptSourceCB, decryptSinkCB)`. -/
def decryptCallbacks (in_len : Nat) : Callbacks :=
  { source := decryptSourceCB
    mem := fun L => L.outputBuf
    sink := decryptSinkCB in_len }

/-- The locals when `encryptData` is entered (lines 33, 51-53, 72). -/
def localsAtEncrypt (env : Env) (in_len : Nat) : Locals :=
  { offset := 0
    outputOffset := 0
    buf_size := in_len
    outputBuf := alloc env.uninit in_len
    decryptOffset := 0
    decryptBuf := []
    dOffset := 0
    events := [Event.alloc in_len, Event.construct, Event.encryptData] }

/-- The locals when `decryptData` is entered (lines 79, 98-99), `L` being the
locals `encryptData` left. -/
def localsAtDecrypt (env : Env) (in_len : Nat) (L : Locals) : Locals :=
  { L with
    decryptOffset := 0
    decryptBuf := alloc env.uninit ((2 * in_len) % ULONG_RANGE)
    dOffset := 0
    events := L.events ++ [Event.alloc ((2 * in_len) % ULONG_RANGE), Event.decryptData] }

/-- The handler of line 129: report and return 1.  The out-parameters keep
what lines 16-17 stored. -/
def caught (events : List Event) : Result :=
  { status := 1, output := none, out_len := 0, events := events ++ [Event.cerrException] }

/-- The function `encryptBytes` (lines 15-134).  `none` stands for a call
that never returns. -/
def encryptBytes (env : Env) (lib : ClientLib) (data : List Byte) (in_len : Nat) :
    Option Result :=
  -- *output = NULL; *out_len = NULL;
  let output : Option (List Byte) := none
  let out_len : Nat := 0
  match env.VIRTRU_SDK_USER with
  | none => some { status := 1, output := output, out_len := out_len,
                    events := [Event.cerrNoUser] }
  | some user =>
    match env.VIRTRU_SDK_APP_ID with
    | none => some { status := 1, output := output, out_len := out_len,
                      events := [Event.cerrNoAppId] }
    | some appId =>
      match lib user appId with
      | none => some (caught [Event.alloc in_len, Event.construct])
      | some client =>
        match client.encryptData (encryptCallbacks env data in_len)
            (localsAtEncrypt env in_len) with
        | none => none
        | some (Outcome.raised L) => some (caught L.events)
        | some (Outcome.returned L1) =>
          match client.decryptData (decryptCallbacks in_len)
              (localsAtDecrypt env in_len L1) with
          | none => none
          | some (Outcome.raised L) => some (caught L.events)
          | some (Outcome.returned L3) =>
            let check :=
              if data.take in_len = L3.decryptBuf.take in_len then Event.coutRoundTripOk
              else Event.coutRoundTripFailed
            some { status := 0
                   output := some L3.outputBuf
                   out_len := L3.outputOffset
                   events := L3.events ++ [check, Event.coutWeDidIt L3.outputOffset] }

/-- A client operation as the sequence of calls it makes: it pulls from the
source and goes on according to the status, the span and the bytes behind it;
it pushes a span to the sink and goes on according to the status; it
returns; or it raises. -/
inductive Engine where
  | pull (k : Status → BufferSpan → List Byte → Engine)
  | push (span : List Byte) (k : Status → Engine)
  | done
  | raise

/-- Running a client operation against a pair of callbacks. -/
def Engine.run (cb : Callbacks) : Engine → Locals → Outcome
  | Engine.pull k, L =>
    let r := cb.source L
    (k r.1 r.2.1 (deref (cb.mem r.2.2) r.2.1)).run cb r.2.2
  | Engine.push span k, L =>
    let r := cb.sink L span
    (k r.1).run cb r.2
  | Engine.done, L => Outcome.returned L
  | Engine.raise, L => Outcome.raised L

/-- The spans a client operation pushes to the sink during its run, in order. -/
def Engine.pushes (cb : Callbacks) : Engine → Locals → List (List Byte)
  | Engine.pull k, L =>
    let r := cb.source L
    (k r.1 r.2.1 (deref (cb.mem r.2.2) r.2.1)).pushes cb r.2.2
  | Engine.push span k, L =>
    let r := cb.sink L span
    span :: (k r.1).pushes cb r.2
  | Engine.done, _ => []
  | Engine.raise, _ => []

/-- A client operation that raises as soon as the sink answers a push with
`Failure`. -/
inductive Engine.RaisesOnFailure : Engine → Prop where
  | pull (k : Status → BufferSpan → List Byte → Engine) :
      (∀ st span bytes, (k st span bytes).RaisesOnFailure) →
      (Engine.pull k).RaisesOnFailure
  | push (span : List Byte) (k : Status → Engine) :
      k Status.Failure = Engine.raise → (k Status.Success).RaisesOnFailure →
      (Engine.push span k).RaisesOnFailure
  | done : Engine.done.RaisesOnFailure
  | raise : Engine.raise.RaisesOnFailure

/-- The client operation that pushes the given spans in order, raises at the
first `Failure` and returns after the last span. -/
def Engine.pushing : List (List Byte) → Engine
  | [] => Engine.done
  | span :: rest =>
    Engine.push span (fun st =>
      match st with
      | Status.Failure => Engine.raise
      | Status.Success => Engine.pushing rest)

/-- The client whose two operations are the given call sequences. -/
def Client.ofEngines (enc dec : Engine) : Client :=
  { encryptData := fun cb L => some (enc.run cb L)
    decryptData := fun cb L => some (dec.run cb L) }

/-- Pulling from the source until the first empty span, at most `fuel`
times: the bytes read, in order, and the locals afterwards.  `none` when no
empty span came within `fuel` pulls. -/
def drain (cb : Callbacks) : Nat → Locals → Option (List Byte × Locals)
  | 0, _ => none
  | fuel + 1, L =>
    let r := cb.source L
    if r.2.1.dataLength = 0 then some ([], r.2.2)
    else
      match drain cb fuel r.2.2 with
      | none => none
      | some (rest, L2) => some (deref (cb.mem r.2.2) r.2.1 ++ rest, L2)

/-- Pushing chunks to the sink in order; the operation raises at the first
push the sink answers with `Failure`. -/
def pushAll (cb : Callbacks) : List (List Byte) → Locals → Outcome
  | [], L => Outcome.returned L
  | c :: cs, L =>
    let r := cb.sink L c
    if r.1 = Status.Failure then Outcome.raised r.2 else pushAll cb cs r.2

/-- One operation of a well-behaved client: drain the source, transform the
bytes with `f`, push the result cut into the chunks `chunk` chooses. -/
def transformOp (f : List Byte → List Byte) (chunk : List Byte → List (List Byte))
    (fuel : Nat) (cb : Callbacks) (L : Locals) : Option Outcome :=
  match drain cb fuel L with
  | none => none
  | some (bytes, L1) => some (pushAll cb (chunk (f bytes)) L1)

/-- A well-behaved client: encryption `E`, decryption `D`, and the way each
cuts its output into pushes.  `fuel` bounds the pulls of one operation. -/
def transformClient (E D : List Byte → List Byte)
    (chunkE chunkD : List Byte → List (List Byte)) (fuel : Nat) : Client :=
  { encryptData := transformOp E chunkE fuel
    decryptData := transformOp D chunkD fuel }

/-- The locals after `n` successive calls of a source callback. -/
def pullState (source : Locals → Status × BufferSpan × Locals) : Nat → Locals → Locals
  | 0, L => L
  | n + 1, L => pullState source n (source L).2.2

/-- What the call number `n + 1` of a source callback yields (status, span,
locals afterwards) when the calls start at `L`. -/
def nthPull (source : Locals → Status × BufferSpan × Locals) (n : Nat) (L : Locals) :
    Status × BufferSpan × Locals :=
  source (pullState source n L)

/-- The locals after pushing the given spans to a sink callback, in order. -/
def pushState (sink : Locals → List Byte → Status × Locals) :
    List (List Byte) → Locals → Locals
  | [], L => L
  | s :: ss, L => pushState sink ss (sink L s).2

/-- The statuses a sink callback answers the given pushes with, in order. -/
def pushStatuses (sink : Locals → List Byte → Status × Locals) :
    List (List Byte) → Locals → List Status
  | [], _ => []
  | s :: ss, L => (sink L s).1 :: pushStatuses sink ss (sink L s).2

/-- Sum of the lengths of a sequence of spans. -/
def totalLength (spans : List (List Byte)) : Nat :=
  (spans.map List.length).sum

/-! ## The source callbacks -/

theorem encryptSourceCB_wide (in_len : Nat) (h : UINT_RANGE ≤ in_len) (L : Locals)
    (hL : L.offset < UINT_RANGE) :
    (encryptSourceCB in_len L).2.1.dataLength ≠ 0 ∧
      (encryptSourceCB in_len L).2.2.offset < UINT_RANGE := by
  simp only [UINT_RANGE] at h hL
  have hlt : L.offset < in_len := by omega
  simp only [encryptSourceCB, if_pos hlt, UINT_RANGE]
  constructor
  · omega
  · omega

theorem drain_encrypt_wide (env : Env) (data : List Byte) (in_len : Nat)
    (h : UINT_RANGE ≤ in_len) :
    ∀ (fuel : Nat) (L : Locals), L.offset < UINT_RANGE →
      drain (encryptCallbacks env data in_len) fuel L = none := by
  intro fuel
  induction fuel with
  | zero => intro L _; rfl
  | succ fuel ih =>
    intro L hL
    have hs := encryptSourceCB_wide in_len h L hL
    simp only [drain, encryptCallbacks]
    rw [if_neg hs.1]
    have := ih _ hs.2
    simp only [encryptCallbacks] at this
    rw [this]

theorem pullState_encrypt_wrap :
    ∀ (n : Nat) (L : Locals) (m : Nat), L.offset = (16 * m) % UINT_RANGE →
      (pullState (encryptSourceCB 4294967296) n L).offset = (16 * (m + n)) % UINT_RANGE := by
  intro n
  induction n with
  | zero => intro L m h; exact h
  | succ n ih =>
    intro L m h
    simp only [UINT_RANGE] at h
    have hlt : L.offset < 4294967296 := by omega
    have hstep : (encryptSourceCB 4294967296 L).2.2.offset = (16 * (m + 1)) % UINT_RANGE := by
      simp only [encryptSourceCB, if_pos hlt, UINT_RANGE]
      omega
    have := ih (encryptSourceCB 4294967296 L).2.2 (m + 1) hstep
    simp only [pullState]
    rw [this]
    congr 2
    omega

/-- C5 (code at the failing input).  With `in_len = 2^32` the `unsigned int`
cursor of `encryptSourceCB` wraps before it can reach `in_len`.  Starting from
offset 0, no number of calls reaches a zero-length span, whatever the buffer
holds: call number `n + 1` returns `Success` and the 16 bytes at index
`16 * n mod 2^32`, so after `2^28` calls the buffer is handed out again from
its start. -/
theorem encryptSourceCB_never_ends_at_2_pow_32 (env : Env) (data : List Byte)
    (fuel n : Nat) :
    drain (encryptCallbacks env data 4294967296) fuel (localsAtEncrypt env 4294967296)
      = none ∧
    (nthPull (encryptSourceCB 4294967296) n (localsAtEncrypt env 4294967296)).1
      = Status.Success ∧
    (nthPull (encryptSourceCB 4294967296) n (localsAtEncrypt env 4294967296)).2.1
      = { data := some ((16 * n) % 4294967296), dataLength := 16 } := by
  have hoff := pullState_encrypt_wrap n (localsAtEncrypt env 4294967296) 0 rfl
  simp only [UINT_RANGE, Nat.zero_add] at hoff
  have hlt : (pullState (encryptSourceCB 4294967296) n
      (localsAtEncrypt env 4294967296)).offset < 4294967296 := by omega
  refine ⟨drain_encrypt_wide env data 4294967296 (by decide) fuel
    (localsAtEncrypt env 4294967296) (by simp [localsAtEncrypt]), ?_, ?_⟩
  · simp only [nthPull, encryptSourceCB, if_pos hlt]
  · simp only [nthPull, encryptSourceCB, if_pos hlt, UINT_RANGE, BufferSpan.mk.injEq,
      Option.some.injEq]
    omega

theorem encryptSourceCB_at_end (in_len : Nat) (L : Locals) (h : in_len ≤ L.offset) :
    encryptSourceCB in_len L
      = (Status.Success, { data := some L.offset, dataLength := 0 }, L) := by
  have hlt : ¬ L.offset < in_len := by omega
  simp only [encryptSourceCB, if_neg hlt, if_pos (show L.offset ≥ in_len from h)]

theorem decryptSourceCB_at_end (L : Locals) (h : L.outputOffset ≤ L.decryptOffset) :
    decryptSourceCB L
      = (Status.Success, { data := some L.decryptOffset, dataLength := 0 }, L) := by
  have hlt : ¬ L.decryptOffset < L.outputOffset := by omega
  simp only [decryptSourceCB, if_neg hlt,
    if_pos (show L.decryptOffset ≥ L.outputOffset from h)]

theorem pullState_fixed (source : Locals → Status × BufferSpan × Locals) (L : Locals)
    (h : (source L).2.2 = L) : ∀ n : Nat, pullState source n L = L := by
  intro n
  induction n with
  | zero => rfl
  | succ n ih => simp only [pullState, h, ih]

theorem encryptSourceCB_empty (in_len : Nat) (L : Locals) (hL : L.offset < UINT_RANGE)
    (h : (encryptSourceCB in_len L).2.1.dataLength = 0) : in_len ≤ L.offset := by
  by_contra hlt
  have hlt2 : L.offset < in_len := by omega
  simp only [UINT_RANGE] at hL
  simp only [encryptSourceCB, if_pos hlt2, UINT_RANGE] at h
  omega

theorem decryptSourceCB_empty (L : Locals) (hL : L.decryptOffset < ULONG_RANGE)
    (h : (decryptSourceCB L).2.1.dataLength = 0) : L.outputOffset ≤ L.decryptOffset := by
  by_contra hlt
  have hlt2 : L.decryptOffset < L.outputOffset := by omega
  simp only [ULONG_RANGE] at hL
  simp only [decryptSourceCB, if_pos hlt2, ULONG_RANGE] at h
  omega

/-- C6.  End of stream for both source callbacks.  Once the cursor equals the
total length, every later call (number `n + 1`, any `n`) sets the status to
`Success`, returns the span of length 0 at the current offset and leaves the
locals as they are.  And a call that returned an empty span is followed by
empty spans only. -/
theorem source_end_of_stream (in_len : Nat) (L M : Locals) (n : Nat)
    (hL : L.offset = in_len) (hM : M.decryptOffset = M.outputOffset) :
    nthPull (encryptSourceCB in_len) n L
        = (Status.Success, { data := some L.offset, dataLength := 0 }, L) ∧
    nthPull decryptSourceCB n M
        = (Status.Success, { data := some M.decryptOffset, dataLength := 0 }, M) ∧
    (∀ (P : Locals) (k : Nat), P.offset < UINT_RANGE →
        (encryptSourceCB in_len P).2.1.dataLength = 0 →
        (nthPull (encryptSourceCB in_len) k (encryptSourceCB in_len P).2.2).2.1.dataLength
          = 0) ∧
    (∀ (Q : Locals) (k : Nat), Q.decryptOffset < ULONG_RANGE →
        (decryptSourceCB Q).2.1.dataLength = 0 →
        (nthPull decryptSourceCB k (decryptSourceCB Q).2.2).2.1.dataLength = 0) := by
  have encFix : ∀ P : Locals, in_len ≤ P.offset → ∀ k : Nat,
      nthPull (encryptSourceCB in_len) k P
        = (Status.Success, { data := some P.offset, dataLength := 0 }, P) := by
    intro P hP k
    have h1 := encryptSourceCB_at_end in_len P hP
    have h2 := pullState_fixed (encryptSourceCB in_len) P (by rw [h1]) k
    simp only [nthPull, h2, h1]
  have decFix : ∀ Q : Locals, Q.outputOffset ≤ Q.decryptOffset → ∀ k : Nat,
      nthPull decryptSourceCB k Q
        = (Status.Success, { data := some Q.decryptOffset, dataLength := 0 }, Q) := by
    intro Q hQ k
    have h1 := decryptSourceCB_at_end Q hQ
    have h2 := pullState_fixed decryptSourceCB Q (by rw [h1]) k
    simp only [nthPull, h2, h1]
  refine ⟨encFix L (by omega) n, decFix M (by omega) n, ?_, ?_⟩
  · intro P k hP h0
    have hge := encryptSourceCB_empty in_len P hP h0
    rw [encryptSourceCB_at_end in_len P hge, encFix P hge k]
  · intro Q k hQ h0
    have hge := decryptSourceCB_empty Q hQ h0
    rw [decryptSourceCB_at_end Q hge, decFix Q hge k]

/-- C6, at concrete locals: `in_len = 3` with the encrypt cursor at 3, and
five bytes of ciphertext with the decrypt cursor at 5; the third call after
that, and the call after an empty span. -/
theorem source_end_of_stream_witness :
    nthPull (encryptSourceCB 3) 2
        { offset := 3, outputOffset := 5, buf_size := 8, outputBuf := [], decryptOffset := 5,
          decryptBuf := [], dOffset := 0, events := [] }
      = (Status.Success, { data := some 3, dataLength := 0 },
        { offset := 3, outputOffset := 5, buf_size := 8, outputBuf := [], decryptOffset := 5,
          decryptBuf := [], dOffset := 0, events := [] }) ∧
    nthPull decryptSourceCB 2
        { offset := 3, outputOffset := 5, buf_size := 8, outputBuf := [], decryptOffset := 5,
          decryptBuf := [], dOffset := 0, events := [] }
      = (Status.Success, { data := some 5, dataLength := 0 },
        { offset := 3, outputOffset := 5, buf_size := 8, outputBuf := [], decryptOffset := 5,
          decryptBuf := [], dOffset := 0, events := [] }) ∧
    (nthPull (encryptSourceCB 3) 1
        (encryptSourceCB 3
          { offset := 3, outputOffset := 5, buf_size := 8, outputBuf := [],
            decryptOffset := 5, decryptBuf := [], dOffset := 0, events := [] }).2.2).2.1.dataLength
      = 0 :=
  ⟨(source_end_of_stream 3
      { offset := 3, outputOffset := 5, buf_size := 8, outputBuf := [], decryptOffset := 5,
        decryptBuf := [], dOffset := 0, events := [] }
      { offset := 3, outputOffset := 5, buf_size := 8, outputBuf := [], decryptOffset := 5,
        decryptBuf := [], dOffset := 0, events := [] } 2 rfl rfl).1,
   (source_end_of_stream 3
      { offset := 3, outputOffset := 5, buf_size := 8, outputBuf := [], decryptOffset := 5,
        decryptBuf := [], dOffset := 0, events := [] }
      { offset := 3, outputOffset := 5, buf_size := 8, outputBuf := [], decryptOffset := 5,
        decryptBuf := [], dOffset := 0, events := [] } 2 rfl rfl).2.1,
   (source_end_of_stream 3
      { offset := 3, outputOffset := 5, buf_size := 8, outputBuf := [], decryptOffset := 5,
        decryptBuf := [], dOffset := 0, events := [] }
      { offset := 3, outputOffset := 5, buf_size := 8, outputBuf := [], decryptOffset := 5,
        decryptBuf := [], dOffset := 0, events := [] } 2 rfl rfl).2.2.1
      { offset := 3, outputOffset := 5, buf_size := 8, outputBuf := [], decryptOffset := 5,
        decryptBuf := [], dOffset := 0, events := [] } 1 (by decide) (by decide)⟩

/-! ## The sink callbacks -/

theorem alloc_length (uninit : Nat → Byte) (n : Nat) : (alloc uninit n).length = n := by
  simp [alloc]

theorem memcpy_length (dst src : List Byte) (off : Nat)
    (h : off + src.length ≤ dst.length) : (memcpy dst off src).length = dst.length := by
  simp only [memcpy, List.length_append, List.length_take, List.length_drop]
  omega

theorem memcpy_take (dst src : List Byte) (off : Nat) (h : off ≤ dst.length) :
    (memcpy dst off src).take (off + src.length) = dst.take off ++ src := by
  have hl : (dst.take off ++ src).length = off + src.length := by
    simp only [List.length_append, List.length_take]
    omega
  unfold memcpy
  rw [← hl, List.take_left]

theorem memcpy_take_left (dst src : List Byte) (off : Nat) (h : off ≤ dst.length) :
    (memcpy dst off src).take off = dst.take off := by
  have hl : (dst.take off).length = off := by
    simp only [List.length_take]
    omega
  unfold memcpy
  rw [List.append_assoc, List.take_append_eq_append_take, hl]
  simp

/-- One push to `encryptSinkCB` from locals whose ciphertext buffer is
consistent (`outputOffset ≤ buf_size`, the buffer has `buf_size` bytes) and
whose sizes stay inside `unsigned long`. -/
theorem encryptSinkCB_step (uninit : Nat → Byte) (L : Locals) (span : List Byte)
    (h1 : L.outputOffset ≤ L.buf_size) (h2 : L.outputBuf.length = L.buf_size)
    (h3 : L.buf_size + span.length < ULONG_RANGE) :
    (encryptSinkCB uninit L span).1 = Status.Success ∧
    (encryptSinkCB uninit L span).2.outputOffset = L.outputOffset + span.length ∧
    (encryptSinkCB uninit L span).2.outputOffset ≤ (encryptSinkCB uninit L span).2.buf_size ∧
    (encryptSinkCB uninit L span).2.outputBuf.length
      = (encryptSinkCB uninit L span).2.buf_size ∧
    (encryptSinkCB uninit L span).2.outputBuf.take (L.outputOffset + span.length)
      = L.outputBuf.take L.outputOffset ++ span ∧
    (encryptSinkCB uninit L span).2.buf_size
      = (if L.outputOffset + span.length > L.buf_size
          then max ((2 * L.buf_size) % ULONG_RANGE) (L.buf_size + span.length)
          else L.buf_size) := by
  simp only [ULONG_RANGE] at h3
  have e1 : (L.outputOffset + span.length) % ULONG_RANGE = L.outputOffset + span.length :=
    Nat.mod_eq_of_lt (by simp only [ULONG_RANGE]; omega)
  have e2 : (L.buf_size + span.length) % ULONG_RANGE = L.buf_size + span.length :=
    Nat.mod_eq_of_lt (by simp only [ULONG_RANGE]; omega)
  by_cases hc : L.outputOffset + span.length > L.buf_size
  · have hlen : (List.take L.outputOffset L.outputBuf).length = L.outputOffset := by
      simp only [List.length_take]
      omega
    have hnew : (memcpy
          (alloc uninit (max ((2 * L.buf_size) % ULONG_RANGE) (L.buf_size + span.length)))
          0 (List.take L.outputOffset L.outputBuf)).length
        = max ((2 * L.buf_size) % ULONG_RANGE) (L.buf_size + span.length) := by
      rw [memcpy_length _ _ _ (by rw [alloc_length, hlen]; omega), alloc_length]
    have hpre : (memcpy
          (alloc uninit (max ((2 * L.buf_size) % ULONG_RANGE) (L.buf_size + span.length)))
          0 (List.take L.outputOffset L.outputBuf)).take L.outputOffset
        = List.take L.outputOffset L.outputBuf := by
      have := memcpy_take
        (alloc uninit (max ((2 * L.buf_size) % ULONG_RANGE) (L.buf_size + span.length)))
        (List.take L.outputOffset L.outputBuf) 0 (Nat.zero_le _)
      rw [hlen] at this
      simpa using this
    simp only [encryptSinkCB, e1, e2, if_pos hc]
    refine ⟨trivial, trivial, by omega, ?_, ?_, trivial⟩
    · rw [memcpy_length _ _ _ (by rw [hnew]; omega), hnew]
    · rw [memcpy_take _ _ _ (by rw [hnew]; omega), hpre]
  · simp only [encryptSinkCB, e1, if_neg hc]
    refine ⟨trivial, trivial, by omega, ?_, ?_, trivial⟩
    · rw [memcpy_length _ _ _ (by omega), h2]
    · rw [memcpy_take _ _ _ (by omega)]

/-- The invariant of the ciphertext buffer along a sequence of pushes that
starts from consistent locals. -/
theorem encryptSink_pushes (uninit : Nat → Byte) (in_len : Nat) :
    ∀ (pushes : List (List Byte)) (L : Locals),
      L.outputOffset ≤ L.buf_size → L.outputBuf.length = L.buf_size →
      L.buf_size ≤ in_len + 2 * L.outputOffset →
      in_len + 2 * (L.outputOffset + totalLength pushes) < ULONG_RANGE →
      (pushState (encryptSinkCB uninit) pushes L).outputOffset
          = L.outputOffset + totalLength pushes ∧
      (pushState (encryptSinkCB uninit) pushes L).outputOffset
          ≤ (pushState (encryptSinkCB uninit) pushes L).buf_size ∧
      (pushState (encryptSinkCB uninit) pushes L).outputBuf.length
          = (pushState (encryptSinkCB uninit) pushes L).buf_size ∧
      (pushState (encryptSinkCB uninit) pushes L).buf_size
          ≤ in_len + 2 * (L.outputOffset + totalLength pushes) ∧
      (pushState (encryptSinkCB uninit) pushes L).outputBuf.take
          (L.outputOffset + totalLength pushes)
          = L.outputBuf.take L.outputOffset ++ pushes.flatten ∧
      (∀ st ∈ pushStatuses (encryptSinkCB uninit) pushes L, st = Status.Success) := by
  intro pushes
  induction pushes with
  | nil =>
    intro L h1 h2 h3 _
    simp only [pushState, pushStatuses, totalLength, List.map_nil, List.sum_nil,
      List.flatten_nil, List.append_nil, Nat.add_zero]
    exact ⟨trivial, h1, h2, h3, trivial, by simp⟩
  | cons s ss ih =>
    intro L h1 h2 h3 h4
    have ht : totalLength (s :: ss) = s.length + totalLength ss := by
      simp [totalLength]
    rw [ht] at h4 ⊢
    simp only [ULONG_RANGE] at h4
    obtain ⟨a1, a2, a3, a4, a5, a6⟩ :=
      encryptSinkCB_step uninit L s h1 h2 (by simp only [ULONG_RANGE]; omega)
    have hb : (encryptSinkCB uninit L s).2.buf_size
        ≤ in_len + 2 * (encryptSinkCB uninit L s).2.outputOffset := by
      rw [a6, a2]
      have := Nat.mod_le (2 * L.buf_size) ULONG_RANGE
      split <;> omega
    obtain ⟨b1, b2, b3, b4, b5, b6⟩ := ih (encryptSinkCB uninit L s).2 a3 a4 hb
      (by rw [a2]; simp only [ULONG_RANGE]; omega)
    rw [a2] at b1 b4 b5
    simp only [pushState, pushStatuses, List.flatten_cons]
    refine ⟨by rw [b1]; omega, b2, b3, by rw [← Nat.add_assoc]; exact b4, ?_, ?_⟩
    · rw [← Nat.add_assoc, b5, a5, List.append_assoc]
    · intro st hst
      rcases List.mem_cons.mp hst with h | h
      · rw [h, a1]
      · exact b6 st h

theorem totalLength_append (xs ys : List (List Byte)) :
    totalLength (xs ++ ys) = totalLength xs + totalLength ys := by
  simp [totalLength]

theorem totalLength_take_le (pushes : List (List Byte)) (k : Nat) :
    totalLength (pushes.take k) ≤ totalLength pushes := by
  have h := totalLength_append (pushes.take k) (pushes.drop k)
  rw [List.take_append_drop] at h
  omega

theorem totalLength_eq_length_flatten (xs : List (List Byte)) :
    totalLength xs = xs.flatten.length := by
  simp [totalLength, List.length_flatten]

theorem localsAtEncrypt_consistent (env : Env) (in_len : Nat) :
    (localsAtEncrypt env in_len).outputOffset = 0 ∧
    (localsAtEncrypt env in_len).buf_size = in_len ∧
    (localsAtEncrypt env in_len).outputBuf.length = in_len := by
  simp [localsAtEncrypt, alloc_length]

/-- The invariant of the ciphertext buffer after the first `k` of a sequence
of pushes, from the locals `encryptBytes` sets up. -/
theorem encryptSink_prefix (env : Env) (in_len : Nat) (pushes : List (List Byte))
    (k : Nat) (hfit : in_len + 2 * totalLength pushes < ULONG_RANGE) :
    (pushState (encryptSinkCB env.uninit) (pushes.take k)
        (localsAtEncrypt env in_len)).outputOffset = totalLength (pushes.take k) ∧
    (pushState (encryptSinkCB env.uninit) (pushes.take k)
        (localsAtEncrypt env in_len)).outputOffset
      ≤ (pushState (encryptSinkCB env.uninit) (pushes.take k)
        (localsAtEncrypt env in_len)).buf_size ∧
    (pushState (encryptSinkCB env.uninit) (pushes.take k)
        (localsAtEncrypt env in_len)).outputBuf.take (totalLength (pushes.take k))
      = (pushes.take k).flatten := by
  obtain ⟨c1, c2, c3⟩ := localsAtEncrypt_consistent env in_len
  have hle := totalLength_take_le pushes k
  simp only [ULONG_RANGE] at hfit
  obtain ⟨b1, b2, _, _, b5, _⟩ := encryptSink_pushes env.uninit in_len (pushes.take k)
    (localsAtEncrypt env in_len) (by omega) (by omega) (by omega)
    (by rw [c1]; simp only [ULONG_RANGE]; omega)
  rw [c1] at b1 b5
  simp only [Nat.zero_add, List.take_zero, List.nil_append] at b1 b5
  exact ⟨b1, b2, b5⟩

/-- C7.  Sink growth invariant.  From the locals `encryptBytes` sets up
(`outputOffset = 0`, `buf_size = in_len`), for every sequence of pushes to
`encryptSinkCB` whose sizes fit `unsigned long`: after each push (the first
`k` of them, any `k`) `outputOffset` is the sum of the lengths pushed so far
and `buf_size ≥ outputOffset`; and every push returned `Success`. -/
theorem encryptSink_growth_invariant (env : Env) (in_len : Nat)
    (pushes : List (List Byte)) (k : Nat)
    (hfit : in_len + 2 * totalLength pushes < ULONG_RANGE) :
    (pushState (encryptSinkCB env.uninit) (pushes.take k)
        (localsAtEncrypt env in_len)).outputOffset = totalLength (pushes.take k) ∧
    (pushState (encryptSinkCB env.uninit) (pushes.take k)
        (localsAtEncrypt env in_len)).buf_size
      ≥ (pushState (encryptSinkCB env.uninit) (pushes.take k)
        (localsAtEncrypt env in_len)).outputOffset ∧
    (∀ st ∈ pushStatuses (encryptSinkCB env.uninit) pushes (localsAtEncrypt env in_len),
      st = Status.Success) := by
  obtain ⟨p1, p2, _⟩ := encryptSink_prefix env in_len pushes k hfit
  obtain ⟨c1, c2, c3⟩ := localsAtEncrypt_consistent env in_len
  simp only [ULONG_RANGE] at hfit
  obtain ⟨_, _, _, _, _, b6⟩ := encryptSink_pushes env.uninit in_len pushes
    (localsAtEncrypt env in_len) (by omega) (by omega) (by omega)
    (by rw [c1]; simp only [ULONG_RANGE]; omega)
  exact ⟨p1, p2, b6⟩

/-- C7, at a concrete run: `in_len = 2` and the pushes `[1,2,3]`, `[]`, `[4]`,
looked at after the second push. -/
theorem encryptSink_growth_invariant_witness :
    2 + 2 * totalLength [[1, 2, 3], [], [4]] < ULONG_RANGE ∧
    (pushState (encryptSinkCB (fun _ => 0)) (List.take 2 [[1, 2, 3], [], [4]])
        (localsAtEncrypt
          { VIRTRU_SDK_USER := none, VIRTRU_SDK_APP_ID := none, uninit := fun _ => 0 }
          2)).outputOffset = 3 :=
  ⟨by decide,
   (encryptSink_growth_invariant
      { VIRTRU_SDK_USER := none, VIRTRU_SDK_APP_ID := none, uninit := fun _ => 0 }
      2 [[1, 2, 3], [], [4]] 2 (by decide)).1⟩

/-- C8 (the claim as stated fails).  With `in_len = 4`, nothing written yet
and a push of 5 bytes, `used + incoming = 5 > 4 = capacity`; the capacity
after the push is `max (2 * 4) (4 + 5) = 9`, not `max (2 * 4) (0 + 5) = 8`. -/
theorem encryptSink_realloc_size_counterexample :
    (localsAtEncrypt
        { VIRTRU_SDK_USER := none, VIRTRU_SDK_APP_ID := none, uninit := fun _ => 0 }
        4).outputOffset = 0 ∧
    (localsAtEncrypt
        { VIRTRU_SDK_USER := none, VIRTRU_SDK_APP_ID := none, uninit := fun _ => 0 }
        4).buf_size = 4 ∧
    0 + [1, 2, 3, 4, 5].length > 4 ∧
    (encryptSinkCB (fun _ => 0)
        (localsAtEncrypt
          { VIRTRU_SDK_USER := none, VIRTRU_SDK_APP_ID := none, uninit := fun _ => 0 } 4)
        [1, 2, 3, 4, 5]).2.buf_size = 9 ∧
    max (2 * 4) (0 + [1, 2, 3, 4, 5].length) = 8 ∧
    (encryptSinkCB (fun _ => 0)
        (localsAtEncrypt
          { VIRTRU_SDK_USER := none, VIRTRU_SDK_APP_ID := none, uninit := fun _ => 0 } 4)
        [1, 2, 3, 4, 5]).2.buf_size
      ≠ max (2 * 4) (0 + [1, 2, 3, 4, 5].length) := by
  decide

/-- C8 (amended).  For locals with `outputOffset ≤ buf_size` and sizes inside
`unsigned long`: a push of `span.length` bytes with
`outputOffset + span.length > buf_size` leaves
`buf_size = max (2 * buf_size) (buf_size + span.length)`, where the second
operand adds the incoming length to the old capacity (not to `outputOffset`);
any other push leaves `buf_size` unchanged. -/
theorem encryptSink_realloc_size (uninit : Nat → Byte) (L : Locals) (span : List Byte)
    (hused : L.outputOffset ≤ L.buf_size) (hdouble : 2 * L.buf_size < ULONG_RANGE)
    (hsum : L.buf_size + span.length < ULONG_RANGE) :
    (encryptSinkCB uninit L span).2.buf_size
      = (if L.outputOffset + span.length > L.buf_size
          then max (2 * L.buf_size) (L.buf_size + span.length)
          else L.buf_size) := by
  simp only [ULONG_RANGE] at hsum hdouble
  have e1 : (L.outputOffset + span.length) % ULONG_RANGE = L.outputOffset + span.length :=
    Nat.mod_eq_of_lt (by simp only [ULONG_RANGE]; omega)
  have e2 : (L.buf_size + span.length) % ULONG_RANGE = L.buf_size + span.length :=
    Nat.mod_eq_of_lt (by simp only [ULONG_RANGE]; omega)
  have e3 : (2 * L.buf_size) % ULONG_RANGE = 2 * L.buf_size :=
    Nat.mod_eq_of_lt (by simp only [ULONG_RANGE]; omega)
  by_cases hc : L.outputOffset + span.length > L.buf_size
  · simp only [encryptSinkCB, e1, e2, e3, if_pos hc]
  · simp only [encryptSinkCB, e1, if_neg hc]

/-- C8 (amended), at concrete locals: capacity 4, nothing written, 5 bytes
pushed; the new capacity is `max 8 9 = 9`. -/
theorem encryptSink_realloc_size_witness :
    (encryptSinkCB (fun _ => 0)
        { offset := 0, outputOffset := 0, buf_size := 4, outputBuf := [0, 0, 0, 0],
          decryptOffset := 0, decryptBuf := [], dOffset := 0, events := [] }
        [1, 2, 3, 4, 5]).2.buf_size = 9 :=
  encryptSink_realloc_size (fun _ => 0)
    { offset := 0, outputOffset := 0, buf_size := 4, outputBuf := [0, 0, 0, 0],
      decryptOffset := 0, decryptBuf := [], dOffset := 0, events := [] }
    [1, 2, 3, 4, 5] (by decide) (by decide) (by decide)

/-- C9.  Sink content preservation.  From the locals `encryptBytes` sets up,
for every sequence of pushes to `encryptSinkCB` whose sizes fit
`unsigned long`: after the first `k` pushes the first `outputOffset` bytes of
`outputBuf` are the concatenation of those pushes in order; and the bytes
written by the first `j ≤ k` pushes are still there, index by index, after
push `k`, whether or not a push in between reallocated. -/
theorem encryptSink_content (env : Env) (in_len : Nat) (pushes : List (List Byte))
    (j k : Nat) (hjk : j ≤ k) (hfit : in_len + 2 * totalLength pushes < ULONG_RANGE) :
    (pushState (encryptSinkCB env.uninit) (pushes.take k)
        (localsAtEncrypt env in_len)).outputBuf.take
        (pushState (encryptSinkCB env.uninit) (pushes.take k)
          (localsAtEncrypt env in_len)).outputOffset
      = (pushes.take k).flatten ∧
    (pushState (encryptSinkCB env.uninit) (pushes.take k)
        (localsAtEncrypt env in_len)).outputBuf.take
        (pushState (encryptSinkCB env.uninit) (pushes.take j)
          (localsAtEncrypt env in_len)).outputOffset
      = (pushState (encryptSinkCB env.uninit) (pushes.take j)
        (localsAtEncrypt env in_len)).outputBuf.take
        (pushState (encryptSinkCB env.uninit) (pushes.take j)
          (localsAtEncrypt env in_len)).outputOffset := by
  obtain ⟨k1, _, k3⟩ := encryptSink_prefix env in_len pushes k hfit
  obtain ⟨j1, _, j3⟩ := encryptSink_prefix env in_len pushes j hfit
  rw [k1, j1, k3, j3]
  refine ⟨rfl, ?_⟩
  have hsplit : pushes.take k = pushes.take j ++ (pushes.take k).drop j := by
    have h := List.take_append_drop j (pushes.take k)
    rw [List.take_take, Nat.min_eq_left hjk] at h
    exact h.symm
  have hle : totalLength (pushes.take j) ≤ totalLength (pushes.take k) := by
    rw [hsplit, totalLength_append]
    omega
  have hk : (pushState (encryptSinkCB env.uninit) (pushes.take k)
        (localsAtEncrypt env in_len)).outputBuf.take (totalLength (pushes.take j))
      = ((pushes.take k).flatten).take (totalLength (pushes.take j)) := by
    rw [← k3, List.take_take, Nat.min_eq_left hle]
  rw [hk, totalLength_eq_length_flatten]
  conv_lhs => rw [hsplit, List.flatten_append]
  rw [List.take_left]

/-- C9, at a concrete run: `in_len = 2`, pushes `[1,2,3]` (which
reallocates) and `[4]`; after both, the buffer starts with `1,2,3,4`. -/
theorem encryptSink_content_witness :
    1 ≤ 2 ∧ 2 + 2 * totalLength [[1, 2, 3], [4]] < ULONG_RANGE ∧
    (pushState (encryptSinkCB (fun _ => 0)) (List.take 2 [[1, 2, 3], [4]])
        (localsAtEncrypt
          { VIRTRU_SDK_USER := none, VIRTRU_SDK_APP_ID := none, uninit := fun _ => 0 }
          2)).outputBuf.take
        (pushState (encryptSinkCB (fun _ => 0)) (List.take 2 [[1, 2, 3], [4]])
          (localsAtEncrypt
            { VIRTRU_SDK_USER := none, VIRTRU_SDK_APP_ID := none, uninit := fun _ => 0 }
            2)).outputOffset
      = [1, 2, 3, 4] :=
  ⟨by decide, by decide,
   (encryptSink_content
      { VIRTRU_SDK_USER := none, VIRTRU_SDK_APP_ID := none, uninit := fun _ => 0 }
      2 [[1, 2, 3], [4]] 1 2 (by decide) (by decide)).1⟩

/-- C10.  Ceiling enforcement.  For sizes inside `unsigned long`, a push to
`decryptSinkCB` returns `Failure` exactly when
`dOffset + span.length ≥ in_len + 1`, and `Success` exactly when
`dOffset + span.length ≤ in_len`; an accepted push stores the bytes at index
`dOffset` of `decryptBuf` and advances `dOffset` by their number. -/
theorem decryptSink_ceiling (in_len : Nat) (L : Locals) (span : List Byte)
    (hsum : L.dOffset + span.length < ULONG_RANGE) (hlen : in_len + 1 < ULONG_RANGE) :
    ((decryptSinkCB in_len L span).1 = Status.Failure
      ↔ L.dOffset + span.length ≥ in_len + 1) ∧
    ((decryptSinkCB in_len L span).1 = Status.Success
      ↔ L.dOffset + span.length ≤ in_len) ∧
    ((decryptSinkCB in_len L span).1 = Status.Success →
      (decryptSinkCB in_len L span).2.decryptBuf
        = L.decryptBuf.take L.dOffset ++ span
            ++ L.decryptBuf.drop (L.dOffset + span.length) ∧
      (decryptSinkCB in_len L span).2.dOffset = L.dOffset + span.length) := by
  have e1 : (L.dOffset + span.length) % ULONG_RANGE = L.dOffset + span.length :=
    Nat.mod_eq_of_lt hsum
  have e2 : (in_len + 1) % ULONG_RANGE = in_len + 1 := Nat.mod_eq_of_lt hlen
  by_cases hc : L.dOffset + span.length ≥ in_len + 1
  · simp only [decryptSinkCB, e1, e2, if_pos hc]
    refine ⟨by simp [hc], ?_, ?_⟩
    · constructor
      · intro h; cases h
      · intro h; omega
    · intro h; cases h
  · simp only [decryptSinkCB, e1, e2, if_neg hc, memcpy]
    refine ⟨?_, ?_, ?_⟩
    · constructor
      · intro h; cases h
      · intro h; exact absurd h hc
    · constructor
      · intro _; omega
      · intro _; trivial
    · intro _; exact ⟨trivial, trivial⟩

/-- C10, at concrete locals: `in_len = 4`, `dOffset = 2`; a push of 3 bytes
is refused (`2 + 3 ≥ 4 + 1`). -/
theorem decryptSink_ceiling_witness :
    (decryptSinkCB 4
        { offset := 0, outputOffset := 0, buf_size := 0, outputBuf := [], decryptOffset := 0,
          decryptBuf := [7, 8, 0, 0, 0, 0, 0, 0], dOffset := 2, events := [] }
        [1, 2, 3]).1 = Status.Failure :=
  (decryptSink_ceiling 4
      { offset := 0, outputOffset := 0, buf_size := 0, outputBuf := [], decryptOffset := 0,
        decryptBuf := [7, 8, 0, 0, 0, 0, 0, 0], dOffset := 2, events := [] }
      [1, 2, 3] (by decide) (by decide)).1.mpr (by decide)

theorem encryptSourceCB_frame (in_len : Nat) (L : Locals) :
    (encryptSourceCB in_len L).2.2.outputOffset = L.outputOffset ∧
    (encryptSourceCB in_len L).2.2.buf_size = L.buf_size ∧
    (encryptSourceCB in_len L).2.2.outputBuf = L.outputBuf := by
  unfold encryptSourceCB
  split
  · exact ⟨rfl, rfl, rfl⟩
  · split <;> exact ⟨rfl, rfl, rfl⟩

theorem decryptSourceCB_frame (L : Locals) :
    (decryptSourceCB L).2.2.outputOffset = L.outputOffset ∧
    (decryptSourceCB L).2.2.outputBuf = L.outputBuf := by
  unfold decryptSourceCB
  split
  · exact ⟨rfl, rfl⟩
  · split <;> exact ⟨rfl, rfl⟩

theorem decryptSinkCB_frame (in_len : Nat) (L : Locals) (span : List Byte) :
    (decryptSinkCB in_len L span).2.outputOffset = L.outputOffset ∧
    (decryptSinkCB in_len L span).2.outputBuf = L.outputBuf := by
  simp only [decryptSinkCB]
  split <;> exact ⟨rfl, rfl⟩

theorem encryptSinkCB_bound (uninit : Nat → Byte) (in_len : Nat) (L : Locals)
    (span : List Byte)
    (h1 : L.outputOffset ≤ L.buf_size) (h2 : L.outputBuf.length = L.buf_size)
    (h3 : L.buf_size ≤ in_len + 2 * L.outputOffset)
    (h4 : L.buf_size + span.length < ULONG_RANGE) :
    (encryptSinkCB uninit L span).2.buf_size
      ≤ in_len + 2 * (encryptSinkCB uninit L span).2.outputOffset := by
  obtain ⟨_, a2, _, _, _, a6⟩ := encryptSinkCB_step uninit L span h1 h2 h4
  rw [a6, a2]
  have := Nat.mod_le (2 * L.buf_size) ULONG_RANGE
  split <;> omega

/-- The ciphertext buffer at the end of a client operation run against the
encrypt callbacks: it holds what was there before, followed by everything
the operation pushed; the pulls in between do not touch it. -/
theorem engine_encrypt_run (env : Env) (data : List Byte) (in_len : Nat) :
    ∀ (e : Engine) (L : Locals),
      L.outputOffset ≤ L.buf_size → L.outputBuf.length = L.buf_size →
      L.buf_size ≤ in_len + 2 * L.outputOffset →
      in_len + 2 * (L.outputOffset
          + totalLength (e.pushes (encryptCallbacks env data in_len) L)) < ULONG_RANGE →
      (e.run (encryptCallbacks env data in_len) L).locals.outputOffset
        = L.outputOffset + totalLength (e.pushes (encryptCallbacks env data in_len) L) ∧
      (e.run (encryptCallbacks env data in_len) L).locals.outputBuf.take
          (L.outputOffset + totalLength (e.pushes (encryptCallbacks env data in_len) L))
        = L.outputBuf.take L.outputOffset
            ++ (e.pushes (encryptCallbacks env data in_len) L).flatten := by
  intro e
  induction e with
  | pull k ih =>
    intro L h1 h2 h3 h4
    obtain ⟨f1, f2, f3⟩ := encryptSourceCB_frame in_len L
    simp only [Engine.run, Engine.pushes] at h4 ⊢
    have := ih ((encryptCallbacks env data in_len).source L).1
      ((encryptCallbacks env data in_len).source L).2.1
      (deref ((encryptCallbacks env data in_len).mem
        ((encryptCallbacks env data in_len).source L).2.2)
        ((encryptCallbacks env data in_len).source L).2.1)
      ((encryptCallbacks env data in_len).source L).2.2
    simp only [encryptCallbacks] at this h4 ⊢
    rw [f1, f2, f3] at this
    exact this h1 h2 h3 h4
  | push span k ih =>
    intro L h1 h2 h3 h4
    simp only [Engine.run, Engine.pushes, encryptCallbacks] at h4 ⊢
    have ht : ∀ rest : List (List Byte),
        totalLength (span :: rest) = span.length + totalLength rest := by
      intro rest
      simp [totalLength]
    rw [ht] at h4 ⊢
    simp only [ULONG_RANGE] at h4
    have h5 : L.buf_size + span.length < ULONG_RANGE := by
      simp only [ULONG_RANGE]
      omega
    obtain ⟨_, a2, a3, a4, a5, _⟩ := encryptSinkCB_step env.uninit L span h1 h2 h5
    have hb := encryptSinkCB_bound env.uninit in_len L span h1 h2 h3 h5
    have := ih (encryptSinkCB env.uninit L span).1 (encryptSinkCB env.uninit L span).2
      a3 a4 hb
    simp only [encryptCallbacks] at this
    rw [a2] at this
    obtain ⟨b1, b2⟩ := this (by simp only [ULONG_RANGE]; omega)
    refine ⟨by rw [b1]; omega, ?_⟩
    rw [← Nat.add_assoc, b2, a5, List.flatten_cons, List.append_assoc]
  | done =>
    intro L _ _ _ _
    simp [Engine.run, Engine.pushes, Outcome.locals, totalLength]
  | raise =>
    intro L _ _ _ _
    simp [Engine.run, Engine.pushes, Outcome.locals, totalLength]

/-- A client operation run against the decrypt callbacks leaves the
ciphertext buffer and its length alone. -/
theorem engine_decrypt_run (in_len : Nat) :
    ∀ (e : Engine) (L : Locals),
      (e.run (decryptCallbacks in_len) L).locals.outputOffset = L.outputOffset ∧
      (e.run (decryptCallbacks in_len) L).locals.outputBuf = L.outputBuf := by
  intro e
  induction e with
  | pull k ih =>
    intro L
    obtain ⟨f1, f2⟩ := decryptSourceCB_frame L
    simp only [Engine.run]
    have := ih ((decryptCallbacks in_len).source L).1
      ((decryptCallbacks in_len).source L).2.1
      (deref ((decryptCallbacks in_len).mem ((decryptCallbacks in_len).source L).2.2)
        ((decryptCallbacks in_len).source L).2.1)
      ((decryptCallbacks in_len).source L).2.2
    simp only [decryptCallbacks] at this ⊢
    exact ⟨this.1.trans f1, this.2.trans f2⟩
  | push span k ih =>
    intro L
    obtain ⟨f1, f2⟩ := decryptSinkCB_frame in_len L span
    simp only [Engine.run]
    have := ih ((decryptCallbacks in_len).sink L span).1
      ((decryptCallbacks in_len).sink L span).2
    simp only [decryptCallbacks] at this ⊢
    exact ⟨this.1.trans f1, this.2.trans f2⟩
  | done => intro L; exact ⟨rfl, rfl⟩
  | raise => intro L; exact ⟨rfl, rfl⟩

/-! ## The entry point -/

/-- C2.  Configuration gating.  If `VIRTRU_SDK_USER` or `VIRTRU_SDK_APP_ID`
is unset, `encryptBytes` returns status 1 whatever the input and the client
library are; among its effects there is no construction of the client, no
call of `encryptData` or `decryptData` and no allocation; and the result is
the same for every client library. -/
theorem encryptBytes_config_gating (env : Env) (lib : ClientLib) (data : List Byte)
    (in_len : Nat)
    (hunset : env.VIRTRU_SDK_USER = none ∨ env.VIRTRU_SDK_APP_ID = none) :
    ∃ r : Result, encryptBytes env lib data in_len = some r ∧ r.status = 1 ∧
      Event.construct ∉ r.events ∧ Event.encryptData ∉ r.events ∧
      Event.decryptData ∉ r.events ∧ (∀ n : Nat, Event.alloc n ∉ r.events) ∧
      (∀ lib2 : ClientLib, encryptBytes env lib2 data in_len = some r) := by
  cases hu : env.VIRTRU_SDK_USER with
  | none =>
    refine ⟨{ status := 1, output := none, out_len := 0, events := [Event.cerrNoUser] },
      ?_, rfl, by simp, by simp, by simp, by simp, ?_⟩
    · simp only [encryptBytes, hu]
    · intro lib2
      simp only [encryptBytes, hu]
  | some user =>
    have ha : env.VIRTRU_SDK_APP_ID = none := by
      rcases hunset with h | h
      · rw [hu] at h; cases h
      · exact h
    refine ⟨{ status := 1, output := none, out_len := 0, events := [Event.cerrNoAppId] },
      ?_, rfl, by simp, by simp, by simp, by simp, ?_⟩
    · simp only [encryptBytes, hu, ha]
    · intro lib2
      simp only [encryptBytes, hu, ha]

/-- C2, at a concrete call: the user is unset, the application id is set. -/
theorem encryptBytes_config_gating_witness :
    ∃ r : Result,
      encryptBytes
          { VIRTRU_SDK_USER := none, VIRTRU_SDK_APP_ID := some "app", uninit := fun _ => 0 }
          (fun _ _ => none) [1, 2, 3] 3 = some r ∧ r.status = 1 :=
  match encryptBytes_config_gating
      { VIRTRU_SDK_USER := none, VIRTRU_SDK_APP_ID := some "app", uninit := fun _ => 0 }
      (fun _ _ => none) [1, 2, 3] 3 (Or.inl rfl) with
  | ⟨r, h1, h2, _⟩ => ⟨r, h1, h2⟩

/-- C4.  Failure postcondition.  Whatever the client does, a call of
`encryptBytes` that returns status 1 leaves `*output = NULL` and
`*out_len = 0`. -/
theorem encryptBytes_failure_postcondition (env : Env) (lib : ClientLib)
    (data : List Byte) (in_len : Nat) (r : Result)
    (hret : encryptBytes env lib data in_len = some r) (hstatus : r.status = 1) :
    r.output = none ∧ r.out_len = 0 := by
  unfold encryptBytes at hret
  repeat' split at hret
  all_goals
    cases hret <;> first
      | exact ⟨rfl, rfl⟩
      | simp at hstatus

/-- C4, at a concrete call: both identities set, the constructor of the
client raises; the call returns 1 with `*output = NULL`, `*out_len = 0`. -/
theorem encryptBytes_failure_postcondition_witness :
    encryptBytes
        { VIRTRU_SDK_USER := some "user", VIRTRU_SDK_APP_ID := some "app",
          uninit := fun _ => 0 }
        (fun _ _ => none) [1, 2, 3] 3 = some (caught [Event.alloc 3, Event.construct]) ∧
    (caught [Event.alloc 3, Event.construct]).status = 1 ∧
    (caught [Event.alloc 3, Event.construct]).output = none ∧
    (caught [Event.alloc 3, Event.construct]).out_len = 0 :=
  ⟨rfl, rfl,
   encryptBytes_failure_postcondition
    { VIRTRU_SDK_USER := some "user", VIRTRU_SDK_APP_ID := some "app", uninit := fun _ => 0 }
    (fun _ _ => none) [1, 2, 3] 3 (caught [Event.alloc 3, Event.construct]) rfl rfl⟩

/-- C3.  Success postcondition.  Both identities set, the constructor
returns a client, and its `encryptData` and `decryptData` (any two call
sequences) both return without raising; sizes fit `unsigned long`.  Then
`encryptBytes` returns status 0, `*out_len` is the total number of bytes
pushed to the encrypt sink, and the first `*out_len` bytes of `*output` are
those pushes concatenated in order.  Nothing is assumed about the decrypted
bytes, so the self-check has no part in status or output. -/
theorem encryptBytes_success_postcondition (env : Env) (lib : ClientLib)
    (data : List Byte) (in_len : Nat) (user appId : String) (enc dec : Engine)
    (huser : env.VIRTRU_SDK_USER = some user) (happ : env.VIRTRU_SDK_APP_ID = some appId)
    (hlib : lib user appId = some (Client.ofEngines enc dec))
    (henc : (enc.run (encryptCallbacks env data in_len)
        (localsAtEncrypt env in_len)).completed = true)
    (hdec : (dec.run (decryptCallbacks in_len)
        (localsAtDecrypt env in_len
          (enc.run (encryptCallbacks env data in_len)
            (localsAtEncrypt env in_len)).locals)).completed = true)
    (hfit : in_len + 2 * totalLength
        (enc.pushes (encryptCallbacks env data in_len) (localsAtEncrypt env in_len))
          < ULONG_RANGE) :
    ∃ (r : Result) (buf : List Byte),
      encryptBytes env lib data in_len = some r ∧ r.status = 0 ∧
      r.out_len = totalLength
        (enc.pushes (encryptCallbacks env data in_len) (localsAtEncrypt env in_len)) ∧
      r.output = some buf ∧
      buf.take r.out_len
        = (enc.pushes (encryptCallbacks env data in_len) (localsAtEncrypt env in_len)).flatten
      := by
  obtain ⟨c1, c2, c3⟩ := localsAtEncrypt_consistent env in_len
  simp only [ULONG_RANGE] at hfit
  obtain ⟨e1, e2⟩ := engine_encrypt_run env data in_len enc (localsAtEncrypt env in_len)
    (by omega) (by omega) (by omega) (by rw [c1]; simp only [ULONG_RANGE]; omega)
  rw [c1] at e1 e2
  simp only [Nat.zero_add, List.take_zero, List.nil_append] at e1 e2
  cases h1 : enc.run (encryptCallbacks env data in_len) (localsAtEncrypt env in_len) with
  | raised L => rw [h1] at henc; cases henc
  | returned L1 =>
    rw [h1] at hdec e1 e2
    simp only [Outcome.locals] at hdec e1 e2
    obtain ⟨d1, d2⟩ := engine_decrypt_run in_len dec (localsAtDecrypt env in_len L1)
    cases h3 : dec.run (decryptCallbacks in_len) (localsAtDecrypt env in_len L1) with
    | raised L => rw [h3] at hdec; cases hdec
    | returned L3 =>
      rw [h3] at d1 d2
      simp only [Outcome.locals, localsAtDecrypt] at d1 d2
      refine ⟨{ status := 0
                output := some L3.outputBuf
                out_len := L3.outputOffset
                events := L3.events ++
                  [if data.take in_len = L3.decryptBuf.take in_len
                    then Event.coutRoundTripOk else Event.coutRoundTripFailed,
                   Event.coutWeDidIt L3.outputOffset] },
        L3.outputBuf, ?_, ?_, ?_, ?_, ?_⟩
      · simp only [encryptBytes, huser, happ, hlib, Client.ofEngines, h1, h3]
      · rfl
      · show L3.outputOffset = _
        rw [d1, e1]
      · rfl
      · show L3.outputBuf.take L3.outputOffset = _
        rw [d1, d2, e1, e2]

/-- C3, at a concrete call: input `[1,2,3]`; `encryptData` pulls once and
pushes what it read, `decryptData` returns at once (so the self-check fails);
status 0 and `*out_len = 3` all the same. -/
theorem encryptBytes_success_postcondition_witness :
    ∃ (r : Result) (buf : List Byte),
      encryptBytes
          { VIRTRU_SDK_USER := some "user", VIRTRU_SDK_APP_ID := some "app",
            uninit := fun _ => 0 }
          (fun _ _ => some (Client.ofEngines
            (Engine.pull (fun _ _ bytes => Engine.push bytes (fun _ => Engine.done)))
            Engine.done))
          [1, 2, 3] 3 = some r ∧
      r.status = 0 ∧ r.out_len = 3 ∧ r.output = some buf ∧ buf.take r.out_len = [1, 2, 3] :=
  encryptBytes_success_postcondition
    { VIRTRU_SDK_USER := some "user", VIRTRU_SDK_APP_ID := some "app", uninit := fun _ => 0 }
    (fun _ _ => some (Client.ofEngines
      (Engine.pull (fun _ _ bytes => Engine.push bytes (fun _ => Engine.done)))
      Engine.done))
    [1, 2, 3] 3 "user" "app"
    (Engine.pull (fun _ _ bytes => Engine.push bytes (fun _ => Engine.done)))
    Engine.done rfl rfl rfl (by decide) (by decide) (by decide)

/-- C1 (code at the failing input).  Both identities set, a client that
drains the source, transforms and pushes (any `E`, `D`, any chunking, any
bound `fuel` on its pulls), and `in_len = 2^32`: `encryptData` never sees an
empty span, so `encryptBytes` does not return. -/
theorem encryptBytes_no_return_at_2_pow_32 (user appId : String) (uninit : Nat → Byte)
    (E D : List Byte → List Byte) (chunkE chunkD : List Byte → List (List Byte))
    (fuel : Nat) (data : List Byte) :
    encryptBytes
        { VIRTRU_SDK_USER := some user, VIRTRU_SDK_APP_ID := some appId, uninit := uninit }
        (fun _ _ => some (transformClient E D chunkE chunkD fuel)) data 4294967296
      = none := by
  have h := drain_encrypt_wide
    { VIRTRU_SDK_USER := some user, VIRTRU_SDK_APP_ID := some appId, uninit := uninit }
    data 4294967296 (by decide) fuel
    (localsAtEncrypt
      { VIRTRU_SDK_USER := some user, VIRTRU_SDK_APP_ID := some appId, uninit := uninit }
      4294967296)
    (by simp [localsAtEncrypt])
  simp only [encryptBytes, transformClient, transformOp, h]

/-! ## The round trip below `2^32` bytes

The claims C1 and C5 fail from `in_len = 2^32` on.  Below that bound the
code does what they say. -/

theorem take_drop_chunk (mem : List Byte) (off m rest : Nat) :
    (mem.drop off).take m ++ (mem.drop (off + m)).take rest
      = (mem.drop off).take (m + rest) := by
  rw [← List.drop_drop, List.take_add]

/-- Below `2^32` the encrypt source does what C5 says: from any cursor
`≤ in_len`, more than `in_len - offset` pulls reach the empty span, the spans
before it put together are the bytes from the cursor to `in_len`, and the
cursor ends at `in_len`. -/
theorem drain_encrypt_narrow (env : Env) (data : List Byte) (in_len : Nat)
    (hnarrow : in_len < UINT_RANGE) :
    ∀ (fuel : Nat) (L : Locals), L.offset ≤ in_len → in_len - L.offset < fuel →
      drain (encryptCallbacks env data in_len) fuel L
        = some ((data.drop L.offset).take (in_len - L.offset),
            { L with offset := in_len }) := by
  intro fuel
  induction fuel with
  | zero => intro L _ h; omega
  | succ fuel ih =>
    intro L hle hfuel
    simp only [UINT_RANGE] at hnarrow
    by_cases hlt : L.offset < in_len
    · have e1 : (L.offset + min 16 (in_len - L.offset)) % UINT_RANGE
          = L.offset + min 16 (in_len - L.offset) :=
        Nat.mod_eq_of_lt (by simp only [UINT_RANGE]; omega)
      have e2 : (L.offset + min 16 (in_len - L.offset) + UINT_RANGE - L.offset) % UINT_RANGE
          = min 16 (in_len - L.offset) := by
        simp only [UINT_RANGE]
        omega
      have hne : min 16 (in_len - L.offset) ≠ 0 := by omega
      have hrec := ih { L with offset := L.offset + min 16 (in_len - L.offset) }
        (by show L.offset + min 16 (in_len - L.offset) ≤ in_len; omega)
        (by show in_len - (L.offset + min 16 (in_len - L.offset)) < fuel; omega)
      simp only [encryptCallbacks] at hrec
      simp only [drain, encryptCallbacks, encryptSourceCB, if_pos hlt, e1, e2, if_neg hne,
        hrec, deref]
      rw [take_drop_chunk]
      have : min 16 (in_len - L.offset) + (in_len - (L.offset + min 16 (in_len - L.offset)))
          = in_len - L.offset := by omega
      rw [this]
    · have heq : L.offset = in_len := by omega
      have hend := encryptSourceCB_at_end in_len L (by omega)
      simp only [drain, encryptCallbacks, hend, if_pos]
      rw [← heq]
      simp

/-- The decrypt source, whose cursor is an `unsigned long`: from any cursor
`≤ outputOffset`, more than `outputOffset - decryptOffset` pulls reach the
empty span and the spans before it are the ciphertext from the cursor on. -/
theorem drain_decrypt (in_len : Nat) :
    ∀ (fuel : Nat) (L : Locals), L.outputOffset < ULONG_RANGE →
      L.decryptOffset ≤ L.outputOffset → L.outputOffset - L.decryptOffset < fuel →
      drain (decryptCallbacks in_len) fuel L
        = some ((L.outputBuf.drop L.decryptOffset).take (L.outputOffset - L.decryptOffset),
            { L with decryptOffset := L.outputOffset }) := by
  intro fuel
  induction fuel with
  | zero => intro L _ _ h; omega
  | succ fuel ih =>
    intro L hrange hle hfuel
    simp only [ULONG_RANGE] at hrange
    by_cases hlt : L.decryptOffset < L.outputOffset
    · have e1 : (L.decryptOffset + min 16 (L.outputOffset - L.decryptOffset)) % ULONG_RANGE
          = L.decryptOffset + min 16 (L.outputOffset - L.decryptOffset) :=
        Nat.mod_eq_of_lt (by simp only [ULONG_RANGE]; omega)
      have e2 : (L.decryptOffset + min 16 (L.outputOffset - L.decryptOffset) + ULONG_RANGE
            - L.decryptOffset) % ULONG_RANGE
          = min 16 (L.outputOffset - L.decryptOffset) := by
        simp only [ULONG_RANGE]
        omega
      have hne : min 16 (L.outputOffset - L.decryptOffset) ≠ 0 := by omega
      have hrec := ih
        { L with decryptOffset := L.decryptOffset + min 16 (L.outputOffset - L.decryptOffset) }
        (by show L.outputOffset < ULONG_RANGE; simp only [ULONG_RANGE]; omega)
        (by show L.decryptOffset + min 16 (L.outputOffset - L.decryptOffset) ≤ L.outputOffset
            omega)
        (by show L.outputOffset - (L.decryptOffset + min 16 (L.outputOffset - L.decryptOffset))
              < fuel
            omega)
      simp only [decryptCallbacks] at hrec
      simp only [drain, decryptCallbacks, decryptSourceCB, if_pos hlt, e1, e2, if_neg hne,
        hrec, deref]
      rw [take_drop_chunk]
      have : min 16 (L.outputOffset - L.decryptOffset)
            + (L.outputOffset - (L.decryptOffset + min 16 (L.outputOffset - L.decryptOffset)))
          = L.outputOffset - L.decryptOffset := by omega
      rw [this]
    · have heq : L.decryptOffset = L.outputOffset := by omega
      have hend := decryptSourceCB_at_end L (by omega)
      simp only [drain, decryptCallbacks, hend, if_pos]
      cases L
      simp only at heq
      subst heq
      simp

theorem pushAll_encrypt (env : Env) (data : List Byte) (in_len : Nat) :
    ∀ (chunks : List (List Byte)) (L : Locals),
      pushAll (encryptCallbacks env data in_len) chunks L
        = Outcome.returned (pushState (encryptSinkCB env.uninit) chunks L) := by
  intro chunks
  induction chunks with
  | nil => intro L; rfl
  | cons c cs ih =>
    intro L
    have hs : (encryptSinkCB env.uninit L c).1 = Status.Success := rfl
    have := ih (encryptSinkCB env.uninit L c).2
    simp only [encryptCallbacks] at this
    simp only [pushAll, pushState, encryptCallbacks, hs, this]
    simp

/-- Pushes to the decrypt sink whose lengths add up to at most what is left
below `in_len` are all accepted, and land in `decryptBuf` one after the
other. -/
theorem pushAll_decrypt (in_len : Nat) (hlen : in_len + 1 < ULONG_RANGE) :
    ∀ (chunks : List (List Byte)) (L : Locals),
      L.dOffset + totalLength chunks ≤ in_len → in_len ≤ L.decryptBuf.length →
      ∃ L2 : Locals,
        pushAll (decryptCallbacks in_len) chunks L = Outcome.returned L2 ∧
        L2.dOffset = L.dOffset + totalLength chunks ∧
        L2.decryptBuf.take (L.dOffset + totalLength chunks)
          = L.decryptBuf.take L.dOffset ++ chunks.flatten ∧
        L2.outputBuf = L.outputBuf ∧ L2.outputOffset = L.outputOffset ∧
        L2.events = L.events := by
  intro chunks
  induction chunks with
  | nil =>
    intro L _ _
    exact ⟨L, rfl, by simp [totalLength], by simp [totalLength], rfl, rfl, rfl⟩
  | cons c cs ih =>
    intro L hsum hbuf
    have ht : totalLength (c :: cs) = c.length + totalLength cs := by
      simp [totalLength]
    rw [ht] at hsum ⊢
    simp only [ULONG_RANGE] at hlen
    have e1 : (L.dOffset + c.length) % ULONG_RANGE = L.dOffset + c.length :=
      Nat.mod_eq_of_lt (by simp only [ULONG_RANGE]; omega)
    have e2 : (in_len + 1) % ULONG_RANGE = in_len + 1 :=
      Nat.mod_eq_of_lt (by simp only [ULONG_RANGE]; omega)
    have hacc : ¬ (L.dOffset + c.length ≥ in_len + 1) := by omega
    have hstep : decryptSinkCB in_len L c
        = (Status.Success,
           { L with
             decryptBuf := memcpy L.decryptBuf L.dOffset c
             dOffset := L.dOffset + c.length }) := by
      simp only [decryptSinkCB, e1, e2, if_neg hacc]
    have hml : (memcpy L.decryptBuf L.dOffset c).length = L.decryptBuf.length :=
      memcpy_length _ _ _ (by omega)
    obtain ⟨L2, r1, r2, r3, r4, r5, r6⟩ := ih
      { L with
        decryptBuf := memcpy L.decryptBuf L.dOffset c
        dOffset := L.dOffset + c.length }
      (by show L.dOffset + c.length + totalLength cs ≤ in_len; omega)
      (by show in_len ≤ (memcpy L.decryptBuf L.dOffset c).length; omega)
    refine ⟨L2, ?_, ?_, ?_, r4, r5, r6⟩
    · simp only [pushAll, decryptCallbacks, hstep]
      simp only [decryptCallbacks] at r1
      simpa using r1
    · rw [r2]
      show L.dOffset + c.length + totalLength cs = _
      omega
    · have r3b : L2.decryptBuf.take (L.dOffset + c.length + totalLength cs)
          = (memcpy L.decryptBuf L.dOffset c).take (L.dOffset + c.length) ++ cs.flatten := r3
      rw [← Nat.add_assoc, r3b, memcpy_take _ _ _ (by omega), List.flatten_cons,
        List.append_assoc]

/-- One operation of the drain-transform-push client against the encrypt
callbacks, for an input shorter than `2^32` bytes: it returns, and the
ciphertext buffer then starts with `E data`. -/
theorem transformOp_encrypt (env : Env) (E : List Byte → List Byte)
    (chunkE : List Byte → List (List Byte)) (fuel : Nat) (data : List Byte) (in_len : Nat)
    (hdata : data.length = in_len) (hnarrow : in_len < UINT_RANGE)
    (hchunkE : ∀ x, (chunkE x).flatten = x)
    (hfit : in_len + 2 * (E data).length < ULONG_RANGE) (hfuelE : in_len < fuel) :
    ∃ L1 : Locals,
      transformOp E chunkE fuel (encryptCallbacks env data in_len)
          (localsAtEncrypt env in_len) = some (Outcome.returned L1) ∧
      L1.outputOffset = (E data).length ∧
      L1.outputBuf.take (E data).length = E data := by
  simp only [ULONG_RANGE] at hfit
  obtain ⟨c1, c2, c3⟩ := localsAtEncrypt_consistent env in_len
  have htake : data.take in_len = data := by
    rw [← hdata]
    exact List.take_length data
  obtain ⟨L0, hd, f1, f2, f3⟩ : ∃ L0 : Locals,
      drain (encryptCallbacks env data in_len) fuel (localsAtEncrypt env in_len)
        = some (data, L0) ∧
      L0.outputOffset = 0 ∧ L0.buf_size = in_len ∧ L0.outputBuf.length = in_len := by
    have h := drain_encrypt_narrow env data in_len hnarrow fuel
      (localsAtEncrypt env in_len) (Nat.zero_le _)
      (by show in_len - 0 < fuel; omega)
    have h0 : (localsAtEncrypt env in_len).offset = 0 := rfl
    rw [h0, List.drop_zero, Nat.sub_zero, htake] at h
    exact ⟨_, h, c1, c2, c3⟩
  have htot : totalLength (chunkE (E data)) = (E data).length := by
    rw [totalLength_eq_length_flatten, hchunkE]
  obtain ⟨b1, _, _, _, b5, _⟩ := encryptSink_pushes env.uninit in_len (chunkE (E data)) L0
    (by omega) (by omega) (by omega)
    (by rw [htot, f1]; simp only [ULONG_RANGE]; omega)
  rw [f1, htot] at b1 b5
  rw [hchunkE] at b5
  simp only [Nat.zero_add, List.take_zero, List.nil_append] at b1 b5
  refine ⟨pushState (encryptSinkCB env.uninit) (chunkE (E data)) L0, ?_, b1, b5⟩
  simp only [transformOp, hd, pushAll_encrypt]

/-- One operation of the drain-transform-push client against the decrypt
callbacks, from locals as line 99 leaves them, when what `D` makes of the
ciphertext is no longer than `in_len`: it returns, and `decryptBuf` then
starts with that plaintext; the ciphertext buffer is as before. -/
theorem transformOp_decrypt (D : List Byte → List Byte)
    (chunkD : List Byte → List (List Byte)) (fuel : Nat) (in_len : Nat) (L : Locals)
    (hlen : in_len + 1 < ULONG_RANGE) (hchunkD : ∀ x, (chunkD x).flatten = x)
    (hout : L.outputOffset < ULONG_RANGE) (hcur : L.decryptOffset = 0)
    (hd0 : L.dOffset = 0) (hbuf : in_len ≤ L.decryptBuf.length)
    (hplain : (D (L.outputBuf.take L.outputOffset)).length ≤ in_len)
    (hfuelD : L.outputOffset < fuel) :
    ∃ L3 : Locals,
      transformOp D chunkD fuel (decryptCallbacks in_len) L = some (Outcome.returned L3) ∧
      L3.decryptBuf.take (D (L.outputBuf.take L.outputOffset)).length
        = D (L.outputBuf.take L.outputOffset) ∧
      L3.outputBuf = L.outputBuf ∧ L3.outputOffset = L.outputOffset := by
  obtain ⟨L2, hd, f1, f2, f3, f4⟩ : ∃ L2 : Locals,
      drain (decryptCallbacks in_len) fuel L
        = some (L.outputBuf.take L.outputOffset, L2) ∧
      L2.dOffset = 0 ∧ L2.decryptBuf = L.decryptBuf ∧ L2.outputBuf = L.outputBuf ∧
      L2.outputOffset = L.outputOffset := by
    have h := drain_decrypt in_len fuel L hout (by omega) (by omega)
    rw [hcur, List.drop_zero, Nat.sub_zero] at h
    exact ⟨_, h, hd0, rfl, rfl, rfl⟩
  have htot : totalLength (chunkD (D (L.outputBuf.take L.outputOffset)))
      = (D (L.outputBuf.take L.outputOffset)).length := by
    rw [totalLength_eq_length_flatten, hchunkD]
  obtain ⟨L3, r1, _, r3, r4, r5, _⟩ := pushAll_decrypt in_len hlen
    (chunkD (D (L.outputBuf.take L.outputOffset))) L2
    (by rw [htot, f1]; omega) (by rw [f2]; exact hbuf)
  rw [f1, htot, hchunkD] at r3
  simp only [Nat.zero_add, List.take_zero, List.nil_append] at r3
  refine ⟨L3, ?_, r3, r4.trans f3, r5.trans f4⟩
  simp only [transformOp, hd, r1]

/-- The round trip of C1 for inputs shorter than `2^32` bytes.  Both
identities set; a client that drains its source, applies `E` (resp. `D`) and
pushes the result in chunks of its choosing, with `D (E x) = x`; sizes fit
`unsigned long`; the client may pull more than `in_len` and more than
`(E data).length` times.  Then `encryptBytes` returns 0, hands out the
ciphertext `E data`, and the self-check of line 115 succeeds. -/
theorem encryptBytes_round_trip_narrow (env : Env) (lib : ClientLib) (user appId : String)
    (E D : List Byte → List Byte) (chunkE chunkD : List Byte → List (List Byte))
    (fuel : Nat) (data : List Byte) (in_len : Nat)
    (huser : env.VIRTRU_SDK_USER = some user) (happ : env.VIRTRU_SDK_APP_ID = some appId)
    (hlib : lib user appId = some (transformClient E D chunkE chunkD fuel))
    (hdata : data.length = in_len) (hnarrow : in_len < UINT_RANGE)
    (hDE : ∀ x, D (E x) = x)
    (hchunkE : ∀ x, (chunkE x).flatten = x) (hchunkD : ∀ x, (chunkD x).flatten = x)
    (hfit : in_len + 2 * (E data).length < ULONG_RANGE)
    (hfuelE : in_len < fuel) (hfuelD : (E data).length < fuel) :
    ∃ (r : Result) (buf : List Byte),
      encryptBytes env lib data in_len = some r ∧ r.status = 0 ∧
      r.out_len = (E data).length ∧ r.output = some buf ∧ buf.take r.out_len = E data ∧
      Event.coutRoundTripOk ∈ r.events := by
  have hnarrow2 : in_len < 4294967296 := hnarrow
  have hfit2 : in_len + 2 * (E data).length < 18446744073709551616 := hfit
  have htake : data.take in_len = data := by
    rw [← hdata]
    exact List.take_length data
  obtain ⟨L1, h1, a1, a2⟩ := transformOp_encrypt env E chunkE fuel data in_len hdata hnarrow
    hchunkE hfit hfuelE
  have hplain : D (List.take (localsAtDecrypt env in_len L1).outputOffset
      (localsAtDecrypt env in_len L1).outputBuf) = data := by
    show D (List.take L1.outputOffset L1.outputBuf) = data
    rw [a1, a2, hDE]
  obtain ⟨L3, h3, d1, d2, d3⟩ := transformOp_decrypt D chunkD fuel in_len
    (localsAtDecrypt env in_len L1)
    (by simp only [ULONG_RANGE]; omega) hchunkD
    (by show L1.outputOffset < ULONG_RANGE; rw [a1]; simp only [ULONG_RANGE]; omega)
    rfl rfl
    (by show in_len ≤ (alloc env.uninit ((2 * in_len) % ULONG_RANGE)).length
        rw [alloc_length]
        simp only [ULONG_RANGE]
        omega)
    (by rw [hplain]; omega)
    (by show L1.outputOffset < fuel; rw [a1]; exact hfuelD)
  rw [hplain, hdata] at d1
  have d2b : L3.outputBuf = L1.outputBuf := d2
  have d3b : L3.outputOffset = L1.outputOffset := d3
  have hres : encryptBytes env lib data in_len
      = some { status := 0
               output := some L3.outputBuf
               out_len := L3.outputOffset
               events := L3.events
                 ++ [Event.coutRoundTripOk, Event.coutWeDidIt L3.outputOffset] } := by
    simp only [encryptBytes, huser, happ, hlib, transformClient, h1, h3, htake, d1, if_true]
  refine ⟨_, L3.outputBuf, hres, rfl, ?_, rfl, ?_, ?_⟩
  · show L3.outputOffset = _
    rw [d3b, a1]
  · show L3.outputBuf.take L3.outputOffset = _
    rw [d2b, d3b, a1, a2]
  · simp

/-- The round trip at a concrete call: three bytes, a client that reverses
the bytes both ways and pushes them in one piece. -/
theorem encryptBytes_round_trip_example :
    ∃ (r : Result) (buf : List Byte),
      encryptBytes
          { VIRTRU_SDK_USER := some "user", VIRTRU_SDK_APP_ID := some "app",
            uninit := fun _ => 0 }
          (fun _ _ => some (transformClient List.reverse List.reverse
            (fun x => [x]) (fun x => [x]) 4))
          [1, 2, 3] 3 = some r ∧
      r.status = 0 ∧ r.out_len = 3 ∧ r.output = some buf ∧ buf.take r.out_len = [3, 2, 1] ∧
      Event.coutRoundTripOk ∈ r.events :=
  encryptBytes_round_trip_narrow
    { VIRTRU_SDK_USER := some "user", VIRTRU_SDK_APP_ID := some "app", uninit := fun _ => 0 }
    (fun _ _ => some (transformClient List.reverse List.reverse
      (fun x => [x]) (fun x => [x]) 4))
    "user" "app" List.reverse List.reverse (fun x => [x]) (fun x => [x]) 4 [1, 2, 3] 3
    rfl rfl rfl rfl (by decide) List.reverse_reverse (by intro x; simp) (by intro x; simp)
    (by decide) (by decide) (by decide)

/-! ## The cursors of the two source callbacks -/

theorem encryptSourceCB_status (in_len : Nat) (L : Locals) :
    (encryptSourceCB in_len L).1 = Status.Success ∧
      (encryptSourceCB in_len L).2.1.data ≠ none := by
  by_cases h : L.offset < in_len
  · simp only [encryptSourceCB, if_pos h]
    exact ⟨trivial, by simp⟩
  · rw [encryptSourceCB_at_end in_len L (by omega)]
    exact ⟨rfl, by simp⟩

theorem decryptSourceCB_status (L : Locals) :
    (decryptSourceCB L).1 = Status.Success ∧ (decryptSourceCB L).2.1.data ≠ none := by
  by_cases h : L.decryptOffset < L.outputOffset
  · simp only [decryptSourceCB, if_pos h]
    exact ⟨trivial, by simp⟩
  · rw [decryptSourceCB_at_end L (by omega)]
    exact ⟨rfl, by simp⟩

theorem encryptSourceCB_pointer (in_len : Nat) (L : Locals) :
    (encryptSourceCB in_len L).2.1.data = some L.offset := by
  by_cases h : L.offset < in_len
  · simp only [encryptSourceCB, if_pos h]
  · rw [encryptSourceCB_at_end in_len L (by omega)]

theorem decryptSourceCB_pointer (L : Locals) :
    (decryptSourceCB L).2.1.data = some L.decryptOffset := by
  by_cases h : L.decryptOffset < L.outputOffset
  · simp only [decryptSourceCB, if_pos h]
  · rw [decryptSourceCB_at_end L (by omega)]

/-- C15 (the claim as stated fails).  The caller passes `data = NULL` with
`in_len = 0`, which the precondition allows.  The first call of
`encryptSourceCB` sets `Success` and returns `data + 0` with length 0: the
pointer of the span is the null pointer. -/
theorem source_null_span_counterexample :
    (encryptSourceCB 0
        (localsAtEncrypt
          { VIRTRU_SDK_USER := some "user", VIRTRU_SDK_APP_ID := some "app",
            uninit := fun _ => 0 } 0)).1 = Status.Success ∧
    (encryptSourceCB 0
        (localsAtEncrypt
          { VIRTRU_SDK_USER := some "user", VIRTRU_SDK_APP_ID := some "app",
            uninit := fun _ => 0 } 0)).2.1 = { data := some 0, dataLength := 0 } ∧
    BufferSpan.address 0
        (encryptSourceCB 0
          (localsAtEncrypt
            { VIRTRU_SDK_USER := some "user", VIRTRU_SDK_APP_ID := some "app",
              uninit := fun _ => 0 } 0)).2.1 = 0 := by
  decide

/-- C15 (amended).  The reserved failure branch is dead code.  Whatever the
cursor and the total length are, a call of `encryptSourceCB` or of
`decryptSourceCB` sets the status to `Success`, never to `Failure`, and the
pointer of the span is never the `nullptr` of that branch: it is the base
pointer plus the cursor.  So, `base` being the address the base pointer
holds, the span is null exactly when the base pointer is `NULL` and the
cursor is 0. -/
theorem source_failure_branch_unreachable (in_len : Nat) (L : Locals) (base : Nat) :
    (encryptSourceCB in_len L).1 = Status.Success ∧
    (encryptSourceCB in_len L).1 ≠ Status.Failure ∧
    (encryptSourceCB in_len L).2.1.data ≠ none ∧
    (decryptSourceCB L).1 = Status.Success ∧
    (decryptSourceCB L).1 ≠ Status.Failure ∧
    (decryptSourceCB L).2.1.data ≠ none ∧
    (BufferSpan.address base (encryptSourceCB in_len L).2.1 = 0
      ↔ base = 0 ∧ L.offset = 0) ∧
    (BufferSpan.address base (decryptSourceCB L).2.1 = 0
      ↔ base = 0 ∧ L.decryptOffset = 0) := by
  have henc := encryptSourceCB_status in_len L
  have hdec := decryptSourceCB_status L
  refine ⟨henc.1, ?_, henc.2, hdec.1, ?_, hdec.2, ?_, ?_⟩
  · rw [henc.1]; decide
  · rw [hdec.1]; decide
  · simp only [BufferSpan.address, encryptSourceCB_pointer]
    omega
  · simp only [BufferSpan.address, decryptSourceCB_pointer]
    omega

/-- One call of `decryptSourceCB` with the cursor inside the ciphertext: the
cursor moves to `min (decryptOffset + 16) outputOffset`, the span starts at
the old cursor and is as long as the move. -/
theorem decryptSourceCB_cursor (L : Locals) (hout : L.outputOffset < ULONG_RANGE)
    (hle : L.decryptOffset ≤ L.outputOffset) :
    (decryptSourceCB L).2.2.decryptOffset = min (L.decryptOffset + 16) L.outputOffset ∧
    (decryptSourceCB L).2.2.outputOffset = L.outputOffset ∧
    (decryptSourceCB L).2.1.data = some L.decryptOffset ∧
    (decryptSourceCB L).2.1.dataLength
      = min (L.decryptOffset + 16) L.outputOffset - L.decryptOffset := by
  simp only [ULONG_RANGE] at hout
  by_cases h : L.decryptOffset < L.outputOffset
  · simp only [decryptSourceCB, if_pos h, ULONG_RANGE]
    refine ⟨?_, trivial, trivial, ?_⟩
    · omega
    · omega
  · rw [decryptSourceCB_at_end L (by omega)]
    refine ⟨?_, rfl, rfl, ?_⟩
    · show L.decryptOffset = _
      omega
    · show 0 = _
      omega

/-- One call of `encryptSourceCB` for an input shorter than `2^32` bytes,
with the cursor inside the input: as `decryptSourceCB_cursor`. -/
theorem encryptSourceCB_cursor_narrow (in_len : Nat) (L : Locals)
    (hnarrow : in_len < UINT_RANGE) (hle : L.offset ≤ in_len) :
    (encryptSourceCB in_len L).2.2.offset = min (L.offset + 16) in_len ∧
    (encryptSourceCB in_len L).2.1.data = some L.offset ∧
    (encryptSourceCB in_len L).2.1.dataLength = min (L.offset + 16) in_len - L.offset := by
  simp only [UINT_RANGE] at hnarrow
  by_cases h : L.offset < in_len
  · simp only [encryptSourceCB, if_pos h, UINT_RANGE]
    refine ⟨?_, trivial, ?_⟩
    · omega
    · omega
  · rw [encryptSourceCB_at_end in_len L (by omega)]
    refine ⟨?_, rfl, ?_⟩
    · show L.offset = _
      omega
    · show 0 = _
      omega

/-- The decrypt cursor after `k` calls. -/
theorem pullState_decrypt :
    ∀ (k : Nat) (L : Locals), L.outputOffset < ULONG_RANGE →
      L.decryptOffset ≤ L.outputOffset →
      (pullState decryptSourceCB k L).decryptOffset
        = min (L.decryptOffset + 16 * k) L.outputOffset ∧
      (pullState decryptSourceCB k L).outputOffset = L.outputOffset := by
  intro k
  induction k with
  | zero =>
    intro L _ hle
    simp only [pullState]
    refine ⟨?_, trivial⟩
    omega
  | succ k ih =>
    intro L hout hle
    obtain ⟨c1, c2, _, _⟩ := decryptSourceCB_cursor L hout hle
    obtain ⟨i1, i2⟩ := ih (decryptSourceCB L).2.2 (by rw [c2]; exact hout)
      (by rw [c1, c2]; omega)
    simp only [pullState]
    rw [i1, i2, c1, c2]
    refine ⟨?_, rfl⟩
    omega

/-- The encrypt cursor after `k` calls, for an input shorter than `2^32`
bytes: the first part of C13 below the bound. -/
theorem pullState_encrypt_narrow (in_len : Nat) (hnarrow : in_len < UINT_RANGE) :
    ∀ (k : Nat) (L : Locals), L.offset ≤ in_len →
      (pullState (encryptSourceCB in_len) k L).offset = min (L.offset + 16 * k) in_len := by
  intro k
  induction k with
  | zero =>
    intro L hle
    simp only [pullState]
    omega
  | succ k ih =>
    intro L hle
    obtain ⟨c1, _, _⟩ := encryptSourceCB_cursor_narrow in_len L hnarrow hle
    have i1 := ih (encryptSourceCB in_len L).2.2 (by rw [c1]; omega)
    simp only [pullState]
    rw [i1, c1]
    omega

theorem pullState_succ_last (source : Locals → Status × BufferSpan × Locals) :
    ∀ (n : Nat) (L : Locals),
      pullState source (n + 1) L = (source (pullState source n L)).2.2 := by
  intro n
  induction n with
  | zero => intro L; rfl
  | succ n ih =>
    intro L
    have h := ih (source L).2.2
    simp only [pullState] at h ⊢
    exact h

/-- The calls of `encryptSourceCB` with `in_len = 2^32`, from cursor 0: call
number `n + 1` finds the cursor at `16 * n mod 2^32`, returns the 16 bytes
there and leaves the cursor at `16 * (n + 1) mod 2^32`. -/
theorem nthPull_encrypt_wrap (L : Locals) (n : Nat) (h0 : L.offset = 0) :
    (pullState (encryptSourceCB 4294967296) n L).offset = (16 * n) % 4294967296 ∧
    (nthPull (encryptSourceCB 4294967296) n L).1 = Status.Success ∧
    (nthPull (encryptSourceCB 4294967296) n L).2.1
      = { data := some ((16 * n) % 4294967296), dataLength := 16 } ∧
    (nthPull (encryptSourceCB 4294967296) n L).2.2.offset
      = (16 * (n + 1)) % 4294967296 := by
  have hoff := pullState_encrypt_wrap n L 0 h0
  have hoff2 := pullState_encrypt_wrap (n + 1) L 0 h0
  simp only [UINT_RANGE, Nat.zero_add] at hoff hoff2
  have hlt : (pullState (encryptSourceCB 4294967296) n L).offset < 4294967296 := by omega
  refine ⟨hoff, ?_, ?_, ?_⟩
  · simp only [nthPull, encryptSourceCB, if_pos hlt]
  · simp only [nthPull, encryptSourceCB, if_pos hlt, UINT_RANGE, BufferSpan.mk.injEq,
      Option.some.injEq]
    omega
  · rw [← hoff2, pullState_succ_last]
    rfl

/-- C12 (code at the failing input).  With `in_len = 2^32`, from cursor 0:
before call number `2^28` the cursor of `encryptSourceCB` is `2^32 - 16`;
the call returns the 16 bytes there and leaves the cursor at 0.  The cursor
has decreased, and the span is not as long as the cursor moved. -/
theorem encryptSourceCB_cursor_decreases_at_2_pow_32 (env : Env) :
    (pullState (encryptSourceCB 4294967296) 268435455
        (localsAtEncrypt env 4294967296)).offset = 4294967280 ∧
    (nthPull (encryptSourceCB 4294967296) 268435455
        (localsAtEncrypt env 4294967296)).2.1
      = { data := some 4294967280, dataLength := 16 } ∧
    (nthPull (encryptSourceCB 4294967296) 268435455
        (localsAtEncrypt env 4294967296)).2.2.offset = 0 ∧
    (nthPull (encryptSourceCB 4294967296) 268435455
        (localsAtEncrypt env 4294967296)).2.2.offset
      < (pullState (encryptSourceCB 4294967296) 268435455
        (localsAtEncrypt env 4294967296)).offset := by
  obtain ⟨h1, _, h3, h4⟩ :=
    nthPull_encrypt_wrap (localsAtEncrypt env 4294967296) 268435455 rfl
  have e1 : (16 * 268435455) % 4294967296 = 4294967280 := by norm_num
  have e2 : (16 * (268435455 + 1)) % 4294967296 = 0 := by norm_num
  rw [e1] at h1 h3
  rw [e2] at h4
  refine ⟨h1, h3, h4, ?_⟩
  rw [h1, h4]
  norm_num

/-- C13 (code at the failing input).  With `n = 2^32`, after `k = 2^28`
calls of `encryptSourceCB` from cursor 0 the cursor is 0, while
`min (16 * k) n = 2^32`; and call number `⌈n / 16⌉ + 1 = 2^28 + 1` returns
16 bytes, not an empty span. -/
theorem encryptSourceCB_pull_count_at_2_pow_32 (env : Env) :
    (pullState (encryptSourceCB 4294967296) 268435456
        (localsAtEncrypt env 4294967296)).offset = 0 ∧
    min (16 * 268435456) 4294967296 = 4294967296 ∧
    (4294967296 + 15) / 16 = 268435456 ∧
    (nthPull (encryptSourceCB 4294967296) 268435456
        (localsAtEncrypt env 4294967296)).2.1.dataLength = 16 := by
  obtain ⟨h1, _, h3, _⟩ :=
    nthPull_encrypt_wrap (localsAtEncrypt env 4294967296) 268435456 rfl
  have e1 : (16 * 268435456) % 4294967296 = 0 := by norm_num
  rw [e1] at h1
  refine ⟨h1, by norm_num, by norm_num, ?_⟩
  rw [h3]

/-- C14 (code at the failing input).  One buffer of `2^32` bytes, both
cursors at 0, `in_len = outputOffset = 2^32`.  Call number `2^28 + 1` of
`encryptSourceCB` returns the 16 bytes at index 0 again, the same call of
`decryptSourceCB` returns the empty span at index `2^32`. -/
theorem source_callbacks_differ_at_2_pow_32 (data : List Byte) :
    (nthPull (encryptSourceCB 4294967296) 268435456
        { offset := 0, outputOffset := 4294967296, buf_size := 4294967296, outputBuf := data,
          decryptOffset := 0, decryptBuf := [], dOffset := 0, events := [] }).2.1
      = { data := some 0, dataLength := 16 } ∧
    (nthPull decryptSourceCB 268435456
        { offset := 0, outputOffset := 4294967296, buf_size := 4294967296, outputBuf := data,
          decryptOffset := 0, decryptBuf := [], dOffset := 0, events := [] }).2.1
      = { data := some 4294967296, dataLength := 0 } ∧
    (nthPull (encryptSourceCB 4294967296) 268435456
        { offset := 0, outputOffset := 4294967296, buf_size := 4294967296, outputBuf := data,
          decryptOffset := 0, decryptBuf := [], dOffset := 0, events := [] }).2.1
      ≠ (nthPull decryptSourceCB 268435456
        { offset := 0, outputOffset := 4294967296, buf_size := 4294967296, outputBuf := data,
          decryptOffset := 0, decryptBuf := [], dOffset := 0, events := [] }).2.1 := by
  obtain ⟨_, _, h3, _⟩ := nthPull_encrypt_wrap
    { offset := 0, outputOffset := 4294967296, buf_size := 4294967296, outputBuf := data,
      decryptOffset := 0, decryptBuf := [], dOffset := 0, events := [] } 268435456 rfl
  have e1 : (16 * 268435456) % 4294967296 = 0 := by norm_num
  rw [e1] at h3
  obtain ⟨d1, d2⟩ := pullState_decrypt 268435456
    { offset := 0, outputOffset := 4294967296, buf_size := 4294967296, outputBuf := data,
      decryptOffset := 0, decryptBuf := [], dOffset := 0, events := [] }
    (by simp only [ULONG_RANGE]; norm_num) (Nat.zero_le _)
  have d1b : (pullState decryptSourceCB 268435456
      { offset := 0, outputOffset := 4294967296, buf_size := 4294967296, outputBuf := data,
        decryptOffset := 0, decryptBuf := [], dOffset := 0, events := [] }).decryptOffset
      = 4294967296 := by
    rw [d1]
    norm_num
  have hdec : (nthPull decryptSourceCB 268435456
      { offset := 0, outputOffset := 4294967296, buf_size := 4294967296, outputBuf := data,
        decryptOffset := 0, decryptBuf := [], dOffset := 0, events := [] }).2.1
      = { data := some 4294967296, dataLength := 0 } := by
    simp only [nthPull]
    rw [decryptSourceCB_at_end _ (by rw [d1b, d2])]
    simp only [d1b]
  refine ⟨h3, hdec, ?_⟩
  rw [h3, hdec]
  simp

/-! ## The cursor claims below `2^32` bytes

C12, C13 and C14 fail from `in_len = 2^32` on, through the 32-bit cursor of
`encryptSourceCB`.  For shorter inputs, and for `decryptSourceCB` throughout,
the code does what they say. -/

/-- The cursor invariant of C12 for `encryptSourceCB` with `in_len < 2^32`,
from cursor 0: after `k` calls the cursor is at most `in_len`; the next call
does not decrease it, moves it by at most 16, and returns the span that
starts at the old cursor and is as long as the move. -/
theorem encryptSourceCB_cursor_invariant_narrow (in_len : Nat) (L : Locals) (k : Nat)
    (hnarrow : in_len < UINT_RANGE) (h0 : L.offset = 0) :
    (pullState (encryptSourceCB in_len) k L).offset ≤ in_len ∧
    (pullState (encryptSourceCB in_len) k L).offset
      ≤ (nthPull (encryptSourceCB in_len) k L).2.2.offset ∧
    (nthPull (encryptSourceCB in_len) k L).2.2.offset
      ≤ (pullState (encryptSourceCB in_len) k L).offset + 16 ∧
    (nthPull (encryptSourceCB in_len) k L).2.1.dataLength
      = (nthPull (encryptSourceCB in_len) k L).2.2.offset
        - (pullState (encryptSourceCB in_len) k L).offset ∧
    (nthPull (encryptSourceCB in_len) k L).2.1.dataLength ≤ 16 ∧
    (nthPull (encryptSourceCB in_len) k L).2.1.data
      = some (pullState (encryptSourceCB in_len) k L).offset := by
  have hk := pullState_encrypt_narrow in_len hnarrow k L (by omega)
  have hle : (pullState (encryptSourceCB in_len) k L).offset ≤ in_len := by
    rw [hk]
    omega
  obtain ⟨c1, c2, c3⟩ := encryptSourceCB_cursor_narrow in_len
    (pullState (encryptSourceCB in_len) k L) hnarrow hle
  simp only [nthPull]
  rw [c1, c2, c3]
  refine ⟨hle, ?_, ?_, rfl, ?_, rfl⟩ <;> omega

/-- The cursor invariant of C12 for `decryptSourceCB`, for every ciphertext
length an `unsigned long` can hold, from cursor 0. -/
theorem decryptSourceCB_cursor_invariant (L : Locals) (k : Nat)
    (hout : L.outputOffset < ULONG_RANGE) (h0 : L.decryptOffset = 0) :
    (pullState decryptSourceCB k L).decryptOffset ≤ L.outputOffset ∧
    (pullState decryptSourceCB k L).decryptOffset
      ≤ (nthPull decryptSourceCB k L).2.2.decryptOffset ∧
    (nthPull decryptSourceCB k L).2.2.decryptOffset
      ≤ (pullState decryptSourceCB k L).decryptOffset + 16 ∧
    (nthPull decryptSourceCB k L).2.1.dataLength
      = (nthPull decryptSourceCB k L).2.2.decryptOffset
        - (pullState decryptSourceCB k L).decryptOffset ∧
    (nthPull decryptSourceCB k L).2.1.dataLength ≤ 16 ∧
    (nthPull decryptSourceCB k L).2.1.data
      = some (pullState decryptSourceCB k L).decryptOffset := by
  obtain ⟨k1, k2⟩ := pullState_decrypt k L hout (by omega)
  have hle : (pullState decryptSourceCB k L).decryptOffset
      ≤ (pullState decryptSourceCB k L).outputOffset := by
    rw [k1, k2]
    omega
  obtain ⟨c1, _, c3, c4⟩ := decryptSourceCB_cursor (pullState decryptSourceCB k L)
    (by rw [k2]; exact hout) hle
  simp only [nthPull]
  rw [c1, c3, c4, k2]
  rw [k2] at hle
  refine ⟨hle, ?_, ?_, rfl, ?_, rfl⟩ <;> omega

/-- The pull count of C13 for `n < 2^32`, from cursor 0: after `k` calls the
cursor is `min (16 * k) n`, and call number `k + 1` returns an empty span
exactly when `n ≤ 16 * k`, that is when `k ≥ ⌈n / 16⌉`. -/
theorem encryptSourceCB_pull_count_narrow (n : Nat) (L : Locals) (k : Nat)
    (hnarrow : n < UINT_RANGE) (h0 : L.offset = 0) :
    (pullState (encryptSourceCB n) k L).offset = min (16 * k) n ∧
    ((nthPull (encryptSourceCB n) k L).2.1.dataLength = 0 ↔ n ≤ 16 * k) ∧
    (n ≤ 16 * k ↔ (n + 15) / 16 ≤ k) := by
  have hk := pullState_encrypt_narrow n hnarrow k L (by omega)
  rw [h0, Nat.zero_add] at hk
  have hle : (pullState (encryptSourceCB n) k L).offset ≤ n := by
    rw [hk]
    omega
  obtain ⟨_, _, c3⟩ := encryptSourceCB_cursor_narrow n
    (pullState (encryptSourceCB n) k L) hnarrow hle
  simp only [nthPull]
  rw [c3, hk]
  refine ⟨rfl, ?_, ?_⟩
  · omega
  · omega

theorem bufferSpan_ext (a b : BufferSpan) (h1 : a.data = b.data)
    (h2 : a.dataLength = b.dataLength) : a = b := by
  cases a
  cases b
  simp only at h1 h2
  rw [h1, h2]

/-- The span call number `k + 1` of `encryptSourceCB` returns, for an input
shorter than `2^32` bytes, from cursor 0. -/
theorem nthPull_encrypt_narrow (in_len : Nat) (L : Locals) (k : Nat)
    (hnarrow : in_len < UINT_RANGE) (h0 : L.offset = 0) :
    (nthPull (encryptSourceCB in_len) k L).2.1
      = { data := some (min (16 * k) in_len),
          dataLength := min (16 * (k + 1)) in_len - min (16 * k) in_len } := by
  have hk := pullState_encrypt_narrow in_len hnarrow k L (by omega)
  rw [h0, Nat.zero_add] at hk
  have hle : (pullState (encryptSourceCB in_len) k L).offset ≤ in_len := by
    rw [hk]
    omega
  obtain ⟨_, c2, c3⟩ := encryptSourceCB_cursor_narrow in_len
    (pullState (encryptSourceCB in_len) k L) hnarrow hle
  apply bufferSpan_ext
  · simp only [nthPull]
    rw [c2, hk]
  · simp only [nthPull]
    rw [c3, hk]
    show _ = min (16 * (k + 1)) in_len - min (16 * k) in_len
    omega

/-- The pull count of C13 at `n = 40`: three calls return 16, 16 and 8
bytes, the fourth is the first to return an empty span. -/
theorem encryptSourceCB_pull_count_40 (env : Env) :
    (nthPull (encryptSourceCB 40) 0 (localsAtEncrypt env 40)).2.1
      = { data := some 0, dataLength := 16 } ∧
    (nthPull (encryptSourceCB 40) 1 (localsAtEncrypt env 40)).2.1
      = { data := some 16, dataLength := 16 } ∧
    (nthPull (encryptSourceCB 40) 2 (localsAtEncrypt env 40)).2.1
      = { data := some 32, dataLength := 8 } ∧
    (nthPull (encryptSourceCB 40) 3 (localsAtEncrypt env 40)).2.1
      = { data := some 40, dataLength := 0 } := by
  have h := fun k => nthPull_encrypt_narrow 40 (localsAtEncrypt env 40) k (by decide) rfl
  rw [h 0, h 1, h 2, h 3]
  decide

/-- The equivalence of C14 for `in_len < 2^32`: run over the same length from
cursor 0, the two source callbacks return the same status and the same span
at every call. -/
theorem source_callbacks_agree_narrow (in_len : Nat) (L M : Locals) (k : Nat)
    (hnarrow : in_len < UINT_RANGE) (hL : L.offset = 0) (hM : M.decryptOffset = 0)
    (hout : M.outputOffset = in_len) :
    (nthPull (encryptSourceCB in_len) k L).1 = (nthPull decryptSourceCB k M).1 ∧
    (nthPull (encryptSourceCB in_len) k L).2.1 = (nthPull decryptSourceCB k M).2.1 := by
  have hn : in_len < 4294967296 := hnarrow
  have hk := pullState_encrypt_narrow in_len hnarrow k L (by omega)
  have hle : (pullState (encryptSourceCB in_len) k L).offset ≤ in_len := by
    rw [hk]
    omega
  obtain ⟨_, c2, c3⟩ := encryptSourceCB_cursor_narrow in_len
    (pullState (encryptSourceCB in_len) k L) hnarrow hle
  have hMout : M.outputOffset < ULONG_RANGE := by
    rw [hout]
    simp only [ULONG_RANGE]
    omega
  obtain ⟨k1, k2⟩ := pullState_decrypt k M hMout (by omega)
  have hle2 : (pullState decryptSourceCB k M).decryptOffset
      ≤ (pullState decryptSourceCB k M).outputOffset := by
    rw [k1, k2]
    omega
  obtain ⟨_, _, d3, d4⟩ := decryptSourceCB_cursor (pullState decryptSourceCB k M)
    (by rw [k2]; exact hMout) hle2
  have hsame : (pullState (encryptSourceCB in_len) k L).offset
      = (pullState decryptSourceCB k M).decryptOffset := by
    rw [hk, k1, hL, hM, hout]
  constructor
  · simp only [nthPull]
    rw [(encryptSourceCB_status in_len _).1, (decryptSourceCB_status _).1]
  · apply bufferSpan_ext
    · simp only [nthPull]
      rw [c2, d3, hsame]
    · simp only [nthPull]
      rw [c3, d4, k2, hout, hsame]

/-! ## The decrypt sink along a sequence of pushes -/

theorem memcpy_drop (dst src : List Byte) (off : Nat) (h : off ≤ dst.length) :
    (memcpy dst off src).drop (off + src.length) = dst.drop (off + src.length) := by
  have hl : (dst.take off ++ src).length = off + src.length := by
    simp only [List.length_append, List.length_take]
    omega
  unfold memcpy
  rw [← hl, List.drop_left, hl]

/-- One push to `decryptSinkCB` from locals with `dOffset ≤ in_len` and a
buffer of at least `in_len` bytes, sizes inside `unsigned long`. -/
theorem decryptSinkCB_step (in_len : Nat) (L : Locals) (span : List Byte)
    (hd : L.dOffset ≤ in_len) (hbuf : in_len ≤ L.decryptBuf.length)
    (hlen : in_len + 1 < ULONG_RANGE) (hspan : in_len + span.length < ULONG_RANGE) :
    (decryptSinkCB in_len L span).2.dOffset ≤ in_len ∧
    (decryptSinkCB in_len L span).2.decryptBuf.length = L.decryptBuf.length ∧
    ((decryptSinkCB in_len L span).1 = Status.Failure →
      in_len < L.dOffset + span.length ∧
      (decryptSinkCB in_len L span).2.dOffset = L.dOffset ∧
      (decryptSinkCB in_len L span).2.decryptBuf = L.decryptBuf) ∧
    ((decryptSinkCB in_len L span).1 = Status.Success →
      L.dOffset + span.length ≤ in_len ∧
      (decryptSinkCB in_len L span).2.dOffset = L.dOffset + span.length ∧
      (decryptSinkCB in_len L span).2.decryptBuf.take L.dOffset
        = L.decryptBuf.take L.dOffset ∧
      (decryptSinkCB in_len L span).2.decryptBuf.drop (L.dOffset + span.length)
        = L.decryptBuf.drop (L.dOffset + span.length)) := by
  simp only [ULONG_RANGE] at hlen hspan
  have e1 : (L.dOffset + span.length) % ULONG_RANGE = L.dOffset + span.length :=
    Nat.mod_eq_of_lt (by simp only [ULONG_RANGE]; omega)
  have e2 : (in_len + 1) % ULONG_RANGE = in_len + 1 :=
    Nat.mod_eq_of_lt (by simp only [ULONG_RANGE]; omega)
  by_cases hc : L.dOffset + span.length ≥ in_len + 1
  · simp only [decryptSinkCB, e1, e2, if_pos hc]
    refine ⟨hd, trivial, ?_, ?_⟩
    · intro _
      exact ⟨by omega, trivial, trivial⟩
    · intro h
      cases h
  · simp only [decryptSinkCB, e1, e2, if_neg hc]
    refine ⟨by omega, memcpy_length _ _ _ (by omega), ?_, ?_⟩
    · intro h
      cases h
    · intro _
      exact ⟨by omega, trivial, memcpy_take_left _ _ _ (by omega),
        memcpy_drop _ _ _ (by omega)⟩

/-- The decrypt sink after any sequence of pushes, accepted or rejected. -/
theorem decryptSink_pushes (in_len : Nat) (hlen : in_len + 1 < ULONG_RANGE) :
    ∀ (pushes : List (List Byte)) (L : Locals),
      L.dOffset ≤ in_len → in_len ≤ L.decryptBuf.length →
      (∀ p ∈ pushes, in_len + p.length < ULONG_RANGE) →
      (pushState (decryptSinkCB in_len) pushes L).dOffset ≤ in_len ∧
      (pushState (decryptSinkCB in_len) pushes L).decryptBuf.length
        = L.decryptBuf.length := by
  intro pushes
  induction pushes with
  | nil =>
    intro L hd _ _
    exact ⟨hd, rfl⟩
  | cons p ps ih =>
    intro L hd hbuf hall
    obtain ⟨s1, s2, _, _⟩ := decryptSinkCB_step in_len L p hd hbuf hlen
      (hall p (List.mem_cons_self p ps))
    obtain ⟨i1, i2⟩ := ih (decryptSinkCB in_len L p).2 s1 (by rw [s2]; exact hbuf)
      (fun q hq => hall q (List.mem_cons_of_mem p hq))
    simp only [pushState]
    exact ⟨i1, i2.trans s2⟩

/-- C16.  The decrypt sink stays in bounds and never grows.  From the locals
of line 99 (`dOffset = 0`, `decryptBuf` of `2 * in_len` bytes), after any `k`
pushes of a sequence, accepted or rejected, sizes inside `unsigned long`:
`dOffset ≤ in_len` and `decryptBuf` still has `2 * in_len` bytes.  A further
push that is rejected leaves `dOffset` and `decryptBuf` as they are; one that
is accepted has `dOffset + span.length ≤ in_len`, leaves every byte outside
the indices `dOffset .. dOffset + span.length - 1` as it is, and the buffer
keeps its `2 * in_len` bytes. -/
theorem decryptSink_in_bounds (env : Env) (in_len : Nat) (L : Locals)
    (pushes : List (List Byte)) (k : Nat) (span : List Byte)
    (hbuf : 2 * in_len < ULONG_RANGE)
    (hpushes : ∀ p ∈ pushes, in_len + p.length < ULONG_RANGE)
    (hspan : in_len + span.length < ULONG_RANGE) :
    (pushState (decryptSinkCB in_len) (pushes.take k)
        (localsAtDecrypt env in_len L)).dOffset ≤ in_len ∧
    (pushState (decryptSinkCB in_len) (pushes.take k)
        (localsAtDecrypt env in_len L)).decryptBuf.length = 2 * in_len ∧
    (decryptSinkCB in_len
        (pushState (decryptSinkCB in_len) (pushes.take k) (localsAtDecrypt env in_len L))
        span).2.decryptBuf.length = 2 * in_len ∧
    ((decryptSinkCB in_len
        (pushState (decryptSinkCB in_len) (pushes.take k) (localsAtDecrypt env in_len L))
        span).1 = Status.Failure →
      (decryptSinkCB in_len
        (pushState (decryptSinkCB in_len) (pushes.take k) (localsAtDecrypt env in_len L))
        span).2.dOffset
        = (pushState (decryptSinkCB in_len) (pushes.take k)
            (localsAtDecrypt env in_len L)).dOffset ∧
      (decryptSinkCB in_len
        (pushState (decryptSinkCB in_len) (pushes.take k) (localsAtDecrypt env in_len L))
        span).2.decryptBuf
        = (pushState (decryptSinkCB in_len) (pushes.take k)
            (localsAtDecrypt env in_len L)).decryptBuf) ∧
    ((decryptSinkCB in_len
        (pushState (decryptSinkCB in_len) (pushes.take k) (localsAtDecrypt env in_len L))
        span).1 = Status.Success →
      (pushState (decryptSinkCB in_len) (pushes.take k)
          (localsAtDecrypt env in_len L)).dOffset + span.length ≤ in_len ∧
      (decryptSinkCB in_len
        (pushState (decryptSinkCB in_len) (pushes.take k) (localsAtDecrypt env in_len L))
        span).2.decryptBuf.take
          (pushState (decryptSinkCB in_len) (pushes.take k)
            (localsAtDecrypt env in_len L)).dOffset
        = (pushState (decryptSinkCB in_len) (pushes.take k)
            (localsAtDecrypt env in_len L)).decryptBuf.take
          (pushState (decryptSinkCB in_len) (pushes.take k)
            (localsAtDecrypt env in_len L)).dOffset ∧
      (decryptSinkCB in_len
        (pushState (decryptSinkCB in_len) (pushes.take k) (localsAtDecrypt env in_len L))
        span).2.decryptBuf.drop
          ((pushState (decryptSinkCB in_len) (pushes.take k)
            (localsAtDecrypt env in_len L)).dOffset + span.length)
        = (pushState (decryptSinkCB in_len) (pushes.take k)
            (localsAtDecrypt env in_len L)).decryptBuf.drop
          ((pushState (decryptSinkCB in_len) (pushes.take k)
            (localsAtDecrypt env in_len L)).dOffset + span.length)) := by
  have hb : 2 * in_len < 18446744073709551616 := hbuf
  have hlen : in_len + 1 < ULONG_RANGE := by
    simp only [ULONG_RANGE]
    omega
  have h0 : (localsAtDecrypt env in_len L).dOffset = 0 := rfl
  have hl0 : (localsAtDecrypt env in_len L).decryptBuf.length = 2 * in_len := by
    show (alloc env.uninit ((2 * in_len) % ULONG_RANGE)).length = 2 * in_len
    rw [alloc_length]
    exact Nat.mod_eq_of_lt hbuf
  obtain ⟨i1, i2⟩ := decryptSink_pushes in_len hlen (pushes.take k)
    (localsAtDecrypt env in_len L) (by omega) (by omega)
    (fun p hp => hpushes p (List.mem_of_mem_take hp))
  rw [hl0] at i2
  obtain ⟨_, s2, s3, s4⟩ := decryptSinkCB_step in_len
    (pushState (decryptSinkCB in_len) (pushes.take k) (localsAtDecrypt env in_len L))
    span i1 (by omega) hlen hspan
  refine ⟨i1, i2, s2.trans i2, ?_, ?_⟩
  · intro h
    exact ⟨(s3 h).2.1, (s3 h).2.2⟩
  · intro h
    exact ⟨(s4 h).1, (s4 h).2.2.1, (s4 h).2.2.2⟩

/-- C16, at a concrete run: `in_len = 4`; the pushes `[1,2]` (accepted),
`[3,4,5]` (rejected), `[6]` (accepted) leave `dOffset = 3`, and a further
push of two bytes is rejected and changes nothing. -/
theorem decryptSink_in_bounds_witness :
    2 * 4 < ULONG_RANGE ∧
    (pushState (decryptSinkCB 4) (List.take 3 [[1, 2], [3, 4, 5], [6]])
        (localsAtDecrypt
          { VIRTRU_SDK_USER := none, VIRTRU_SDK_APP_ID := none, uninit := fun _ => 0 }
          4
          (localsAtEncrypt
            { VIRTRU_SDK_USER := none, VIRTRU_SDK_APP_ID := none, uninit := fun _ => 0 }
            4))).dOffset ≤ 4 ∧
    (pushState (decryptSinkCB 4) (List.take 3 [[1, 2], [3, 4, 5], [6]])
        (localsAtDecrypt
          { VIRTRU_SDK_USER := none, VIRTRU_SDK_APP_ID := none, uninit := fun _ => 0 }
          4
          (localsAtEncrypt
            { VIRTRU_SDK_USER := none, VIRTRU_SDK_APP_ID := none, uninit := fun _ => 0 }
            4))).decryptBuf.length = 2 * 4 :=
  ⟨by decide,
   (decryptSink_in_bounds
      { VIRTRU_SDK_USER := none, VIRTRU_SDK_APP_ID := none, uninit := fun _ => 0 } 4
      (localsAtEncrypt
        { VIRTRU_SDK_USER := none, VIRTRU_SDK_APP_ID := none, uninit := fun _ => 0 } 4)
      [[1, 2], [3, 4, 5], [6]] 3 [7, 8] (by decide) (by decide) (by decide)).1,
   (decryptSink_in_bounds
      { VIRTRU_SDK_USER := none, VIRTRU_SDK_APP_ID := none, uninit := fun _ => 0 } 4
      (localsAtEncrypt
        { VIRTRU_SDK_USER := none, VIRTRU_SDK_APP_ID := none, uninit := fun _ => 0 } 4)
      [[1, 2], [3, 4, 5], [6]] 3 [7, 8] (by decide) (by decide) (by decide)).2.1⟩

/-! ## A decrypted text longer than the input -/

theorem decryptSourceCB_frame_sink (L : Locals) :
    (decryptSourceCB L).2.2.dOffset = L.dOffset := by
  unfold decryptSourceCB
  split
  · rfl
  · split <;> rfl

theorem totalLength_cons (p : List Byte) (ps : List (List Byte)) :
    totalLength (p :: ps) = p.length + totalLength ps := by
  simp [totalLength]

/-- Along pushes to `decryptSinkCB` whose lengths add up to more than what is
left below `in_len`: some push `k` is the first to take the sum past
`in_len`; the pushes before it are accepted, push `k` is rejected. -/
theorem decryptSink_first_overflow (in_len : Nat) :
    ∀ (pushes : List (List Byte)) (L : Locals),
      L.dOffset ≤ in_len → in_len < L.dOffset + totalLength pushes →
      L.dOffset + totalLength pushes < ULONG_RANGE →
      ∃ k : Nat, k < pushes.length ∧
        L.dOffset + totalLength (pushes.take k) ≤ in_len ∧
        in_len < L.dOffset + totalLength (pushes.take (k + 1)) ∧
        (∀ j : Nat, j < k →
          (pushStatuses (decryptSinkCB in_len) pushes L)[j]? = some Status.Success) ∧
        (pushStatuses (decryptSinkCB in_len) pushes L)[k]? = some Status.Failure := by
  intro pushes
  induction pushes with
  | nil =>
    intro L hd hover _
    simp only [totalLength, List.map_nil, List.sum_nil] at hover
    omega
  | cons p ps ih =>
    intro L hd hover hfit
    rw [totalLength_cons] at hover hfit
    simp only [ULONG_RANGE] at hfit
    have e1 : (L.dOffset + p.length) % ULONG_RANGE = L.dOffset + p.length :=
      Nat.mod_eq_of_lt (by simp only [ULONG_RANGE]; omega)
    have e2 : (in_len + 1) % ULONG_RANGE = in_len + 1 :=
      Nat.mod_eq_of_lt (by simp only [ULONG_RANGE]; omega)
    by_cases hc : L.dOffset + p.length ≥ in_len + 1
    · have hst : (decryptSinkCB in_len L p).1 = Status.Failure := by
        simp only [decryptSinkCB, e1, e2, if_pos hc]
      refine ⟨0, by simp, ?_, ?_, ?_, ?_⟩
      · simp only [List.take_zero, totalLength, List.map_nil, List.sum_nil]
        omega
      · simp only [Nat.zero_add, List.take_succ_cons, List.take_zero]
        rw [totalLength_cons]
        simp only [totalLength, List.map_nil, List.sum_nil]
        omega
      · intro j hj
        omega
      · simp only [pushStatuses, List.getElem?_cons_zero, hst]
    · have hstep : decryptSinkCB in_len L p
          = (Status.Success,
             { L with
               decryptBuf := memcpy L.decryptBuf L.dOffset p
               dOffset := L.dOffset + p.length }) := by
        simp only [decryptSinkCB, e1, e2, if_neg hc]
      obtain ⟨k, k1, k2, k3, k4, k5⟩ := ih
        { L with
          decryptBuf := memcpy L.decryptBuf L.dOffset p
          dOffset := L.dOffset + p.length }
        (by show L.dOffset + p.length ≤ in_len; omega)
        (by show in_len < L.dOffset + p.length + totalLength ps; omega)
        (by show L.dOffset + p.length + totalLength ps < ULONG_RANGE
            simp only [ULONG_RANGE]; omega)
      have k2b : L.dOffset + p.length + totalLength (ps.take k) ≤ in_len := k2
      have k3b : in_len < L.dOffset + p.length + totalLength (ps.take (k + 1)) := k3
      refine ⟨k + 1, by simp only [List.length_cons]; omega, ?_, ?_, ?_, ?_⟩
      · rw [List.take_succ_cons, totalLength_cons]
        omega
      · rw [List.take_succ_cons, totalLength_cons]
        omega
      · intro j hj
        simp only [pushStatuses, hstep]
        cases j with
        | zero => simp
        | succ j =>
          rw [List.getElem?_cons_succ]
          exact k4 j (by omega)
      · simp only [pushStatuses, hstep]
        rw [List.getElem?_cons_succ]
        exact k5

/-- A client operation that raises on `Failure`, run against the decrypt
callbacks, raises when what it pushes is longer than what is left below
`in_len`. -/
theorem engine_decrypt_overlong (in_len : Nat) (e : Engine) (he : e.RaisesOnFailure) :
    ∀ L : Locals, L.dOffset ≤ in_len →
      in_len < L.dOffset + totalLength (e.pushes (decryptCallbacks in_len) L) →
      L.dOffset + totalLength (e.pushes (decryptCallbacks in_len) L) < ULONG_RANGE →
      (e.run (decryptCallbacks in_len) L).completed = false := by
  induction he with
  | pull k _ ih =>
    intro L hd hover hfit
    have hf := decryptSourceCB_frame_sink L
    simp only [Engine.run, Engine.pushes, decryptCallbacks] at hover hfit ⊢
    have := ih (decryptSourceCB L).1 (decryptSourceCB L).2.1
      (deref (decryptSourceCB L).2.2.outputBuf (decryptSourceCB L).2.1)
      (decryptSourceCB L).2.2
    simp only [decryptCallbacks] at this
    rw [hf] at this
    exact this hd hover hfit
  | push span k hfail _ ih =>
    intro L hd hover hfit
    simp only [Engine.run, Engine.pushes, decryptCallbacks] at hover hfit ⊢
    rw [totalLength_cons] at hover hfit
    simp only [ULONG_RANGE] at hfit
    have e1 : (L.dOffset + span.length) % ULONG_RANGE = L.dOffset + span.length :=
      Nat.mod_eq_of_lt (by simp only [ULONG_RANGE]; omega)
    have e2 : (in_len + 1) % ULONG_RANGE = in_len + 1 :=
      Nat.mod_eq_of_lt (by simp only [ULONG_RANGE]; omega)
    by_cases hc : L.dOffset + span.length ≥ in_len + 1
    · have hst : (decryptSinkCB in_len L span).1 = Status.Failure := by
        simp only [decryptSinkCB, e1, e2, if_pos hc]
      rw [hst, hfail]
      rfl
    · have hstep : decryptSinkCB in_len L span
          = (Status.Success,
             { L with
               decryptBuf := memcpy L.decryptBuf L.dOffset span
               dOffset := L.dOffset + span.length }) := by
        simp only [decryptSinkCB, e1, e2, if_neg hc]
      simp only [hstep] at hover hfit ⊢
      have := ih
        { L with
          decryptBuf := memcpy L.decryptBuf L.dOffset span
          dOffset := L.dOffset + span.length }
      simp only [decryptCallbacks] at this
      exact this (by show L.dOffset + span.length ≤ in_len; omega)
        (by show in_len < L.dOffset + span.length + _; omega)
        (by show L.dOffset + span.length + _ < ULONG_RANGE
            simp only [ULONG_RANGE]; omega)
  | done =>
    intro L hd hover _
    simp only [Engine.pushes, totalLength, List.map_nil, List.sum_nil] at hover
    omega
  | raise =>
    intro L _ _ _
    rfl

theorem pushing_raisesOnFailure :
    ∀ spans : List (List Byte), (Engine.pushing spans).RaisesOnFailure := by
  intro spans
  induction spans with
  | nil => exact Engine.RaisesOnFailure.done
  | cons span rest ih =>
    unfold Engine.pushing
    exact Engine.RaisesOnFailure.push span _ rfl ih

/-- C11.  An overlong decrypt is a failure.  Sizes inside `unsigned long`.
From the locals of line 99, along any sequence of pushes to `decryptSinkCB`
whose lengths add up to more than `in_len`, some push `k` is the first at
which the sum exceeds `in_len`; every push before it is accepted and push
`k` is rejected.  And with both identities set and a client whose
`decryptData` raises when its sink reports `Failure` and pushes more than
`in_len` bytes in all, `encryptBytes` returns status 1. -/
theorem decrypt_overlong_is_failure (env : Env) (lib : ClientLib) (data : List Byte)
    (in_len : Nat) (user appId : String) (enc dec : Engine) (L : Locals)
    (pushes : List (List Byte))
    (huser : env.VIRTRU_SDK_USER = some user) (happ : env.VIRTRU_SDK_APP_ID = some appId)
    (hlib : lib user appId = some (Client.ofEngines enc dec))
    (hraise : dec.RaisesOnFailure)
    (hover : in_len < totalLength pushes) (hfit : totalLength pushes < ULONG_RANGE)
    (hdecOver : in_len < totalLength
      (dec.pushes (decryptCallbacks in_len)
        (localsAtDecrypt env in_len
          (enc.run (encryptCallbacks env data in_len) (localsAtEncrypt env in_len)).locals)))
    (hdecFit : totalLength
      (dec.pushes (decryptCallbacks in_len)
        (localsAtDecrypt env in_len
          (enc.run (encryptCallbacks env data in_len) (localsAtEncrypt env in_len)).locals))
        < ULONG_RANGE) :
    (∃ k : Nat, k < pushes.length ∧
      totalLength (pushes.take k) ≤ in_len ∧
      in_len < totalLength (pushes.take (k + 1)) ∧
      (∀ j : Nat, j < k →
        (pushStatuses (decryptSinkCB in_len) pushes (localsAtDecrypt env in_len L))[j]?
          = some Status.Success) ∧
      (pushStatuses (decryptSinkCB in_len) pushes (localsAtDecrypt env in_len L))[k]?
        = some Status.Failure) ∧
    (∃ r : Result, encryptBytes env lib data in_len = some r ∧ r.status = 1) := by
  constructor
  · have h0 : (localsAtDecrypt env in_len L).dOffset = 0 := rfl
    obtain ⟨k, k1, k2, k3, k4, k5⟩ := decryptSink_first_overflow in_len pushes
      (localsAtDecrypt env in_len L) (by rw [h0]; omega) (by rw [h0]; omega)
      (by rw [h0, Nat.zero_add]; exact hfit)
    rw [h0, Nat.zero_add] at k2 k3
    exact ⟨k, k1, k2, k3, k4, k5⟩
  · cases h1 : enc.run (encryptCallbacks env data in_len) (localsAtEncrypt env in_len) with
    | raised L1 =>
      refine ⟨caught L1.events, ?_, rfl⟩
      simp only [encryptBytes, huser, happ, hlib, Client.ofEngines, h1]
    | returned L1 =>
      rw [h1] at hdecOver hdecFit
      simp only [Outcome.locals] at hdecOver hdecFit
      have h0 : (localsAtDecrypt env in_len L1).dOffset = 0 := rfl
      have hrun := engine_decrypt_overlong in_len dec hraise (localsAtDecrypt env in_len L1)
        (by rw [h0]; omega) (by rw [h0]; omega) (by rw [h0, Nat.zero_add]; exact hdecFit)
      cases h3 : dec.run (decryptCallbacks in_len) (localsAtDecrypt env in_len L1) with
      | returned L3 => rw [h3] at hrun; cases hrun
      | raised L3 =>
        refine ⟨caught L3.events, ?_, rfl⟩
        simp only [encryptBytes, huser, happ, hlib, Client.ofEngines, h1, h3]

/-- C11, at a concrete call: three bytes of input; `encryptData` pulls once
and pushes what it read; `decryptData` pushes `[1,2]` and then `[3,4]`, one
byte more than the input, and raises at the first `Failure`.  The call
returns 1. -/
theorem decrypt_overlong_is_failure_witness :
    3 < totalLength [[1, 2], [3, 4]] ∧
    ∃ r : Result,
      encryptBytes
          { VIRTRU_SDK_USER := some "user", VIRTRU_SDK_APP_ID := some "app",
            uninit := fun _ => 0 }
          (fun _ _ => some (Client.ofEngines
            (Engine.pull (fun _ _ bytes => Engine.push bytes (fun _ => Engine.done)))
            (Engine.pushing [[1, 2], [3, 4]])))
          [1, 2, 3] 3 = some r ∧ r.status = 1 :=
  ⟨by decide,
   (decrypt_overlong_is_failure
      { VIRTRU_SDK_USER := some "user", VIRTRU_SDK_APP_ID := some "app",
        uninit := fun _ => 0 }
      (fun _ _ => some (Client.ofEngines
        (Engine.pull (fun _ _ bytes => Engine.push bytes (fun _ => Engine.done)))
        (Engine.pushing [[1, 2], [3, 4]])))
      [1, 2, 3] 3 "user" "app"
      (Engine.pull (fun _ _ bytes => Engine.push bytes (fun _ => Engine.done)))
      (Engine.pushing [[1, 2], [3, 4]])
      (localsAtEncrypt
        { VIRTRU_SDK_USER := some "user", VIRTRU_SDK_APP_ID := some "app",
          uninit := fun _ => 0 } 3)
      [[1, 2], [3, 4]] rfl rfl rfl (pushing_raisesOnFailure [[1, 2], [3, 4]])
      (by decide) (by decide) (by decide) (by decide)).2⟩

end Wrapper
